import Mathlib

/-!
Verification of the Markdown-todo core: the bidirectional transform between a
Markdown task document and a hierarchical task model, the PUT /raw
document-resubmission sync, and the recurrence rule.

Conventions of the embedding:
* Strings are modelled as lists of characters (`Str`), a document as its text
  (`Str`) split into lines on the newline character.
* The regular-expression constants of `lib/constants.ts` are modelled as
  character-predicate shapes (`DUE_DATE_PATTERN`, `REPEAT_FREQUENCY_PATTERN`,
  `H1_HEADER_PATTERN`, `H2_HEADER_PATTERN`, `TASK_LINE_PATTERN` below).
* The parts of the repository not present in the sources here (the markdown
  parser, renderer, tag extractor and recurrence engine of `lib/markdown.ts`,
  `lib/markdown-renderer.ts`) are modelled from the specification; each such
  definition carries a doc comment saying so.
* The PUT handler of `app/api/v1/projects/[projectId]/raw/route.ts` is
  embedded directly from its source: its storage effects are reified as a
  list of `StoreOp` values in the order the code issues them.
-/

namespace Todo

abbrev Str := List Char

/-- Task status, one of `todo | doing | done` (lib/types.ts). -/
inductive Status where
  | todo
  | doing
  | done
deriving DecidableEq, Repr

/-- Repeat frequency, one of `daily | weekly | monthly` (lib/types.ts). -/
inductive Freq where
  | daily
  | weekly
  | monthly
deriving DecidableEq, Repr

mutual
/-- A task node: id, content (tags stripped), status, optional due date
(stored as its `YYYY-MM-DD` string, as in the TypeScript model), optional
repeat frequency, optional parent id, and the ordered subtasks. -/
inductive Task where
  | mk (id : Str) (content : Str) (status : Status) (dueDate : Option Str)
       (repeatFrequency : Option Freq) (parentId : Option Str)
       (subtasks : Forest) : Task
/-- An ordered forest of tasks. -/
inductive Forest where
  | nil : Forest
  | cons (t : Task) (ts : Forest) : Forest
end

deriving instance DecidableEq for Task
deriving instance DecidableEq for Forest

def Task.id : Task → Str
  | .mk i _ _ _ _ _ _ => i

def Task.content : Task → Str
  | .mk _ c _ _ _ _ _ => c

def Task.status : Task → Status
  | .mk _ _ s _ _ _ _ => s

def Task.dueDate : Task → Option Str
  | .mk _ _ _ d _ _ _ => d

def Task.repeatFrequency : Task → Option Freq
  | .mk _ _ _ _ r _ _ => r

def Task.parentId : Task → Option Str
  | .mk _ _ _ _ _ p _ => p

def Task.subtasks : Task → Forest
  | .mk _ _ _ _ _ _ ts => ts

mutual
/-- Number of nodes in a task's subtree. -/
def Task.size : Task → Nat
  | .mk _ _ _ _ _ _ ts => 1 + Forest.size ts
/-- Number of nodes in a forest. -/
def Forest.size : Forest → Nat
  | .nil => 0
  | .cons t ts => Task.size t + Forest.size ts
end

def Forest.append : Forest → Forest → Forest
  | .nil, g => g
  | .cons t ts, g => .cons t (Forest.append ts g)

def Forest.toList : Forest → List Task
  | .nil => []
  | .cons t ts => t :: Forest.toList ts

def Forest.ofList : List Task → Forest
  | [] => .nil
  | t :: ts => .cons t (Forest.ofList ts)

mutual
/-- The id-free shape of a task: content, status, dueDate, repeatFrequency
and hierarchy — the fields the round-trip law compares. -/
inductive Shape where
  | mk (content : Str) (status : Status) (dueDate : Option Str)
       (repeatFrequency : Option Freq) (subshapes : ShapeForest) : Shape
inductive ShapeForest where
  | nil : ShapeForest
  | cons (s : Shape) (ss : ShapeForest) : ShapeForest
end

deriving instance DecidableEq for Shape
deriving instance DecidableEq for ShapeForest

mutual
/-- Erase ids and parent ids, keeping content/status/dueDate/repeatFrequency
and the hierarchy. -/
def Task.shape : Task → Shape
  | .mk _ c s d r _ ts => .mk c s d r (Forest.shape ts)
def Forest.shape : Forest → ShapeForest
  | .nil => .nil
  | .cons t ts => .cons (Task.shape t) (Forest.shape ts)
end

/-! ## Character shapes: the regex constants of `lib/constants.ts` -/

/-- A fixed-length pattern: one boolean predicate per character. -/
abbrev CShape := List (Char → Bool)

def isDigitB (c : Char) : Bool := c.isDigit

def litB (d : Char) : Char → Bool := fun c => c = d

/-- A string fits a shape: same length, every character satisfies its
predicate. -/
def shapeFits : CShape → Str → Bool
  | [], [] => true
  | p :: ps, c :: s => p c && shapeFits ps s
  | _, _ => false

/-- Match a shape at the head of a string; on success return the matched
characters and the remainder. -/
def matchShape (ps : CShape) (s : Str) : Option (Str × Str) :=
  if shapeFits ps (s.take ps.length) then some (s.take ps.length, s.drop ps.length)
  else none

/-- The `\d{4}-\d{2}-\d{2}` date part of `DUE_DATE_PATTERN`. -/
def dateDigitsShape : CShape :=
  [isDigitB, isDigitB, isDigitB, isDigitB, litB '-', isDigitB, isDigitB,
   litB '-', isDigitB, isDigitB]

/-- Shape of a literal string. -/
def litShape (s : Str) : CShape := s.map litB

/-- The characters of the literal `#due:`. -/
def dueLits : Str := ['#', 'd', 'u', 'e', ':']

/-- The characters of the literal `#repeat:`. -/
def repLits : Str := ['#', 'r', 'e', 'p', 'e', 'a', 't', ':']

def dailyWord : Str := ['d', 'a', 'i', 'l', 'y']

def weeklyWord : Str := ['w', 'e', 'e', 'k', 'l', 'y']

def monthlyWord : Str := ['m', 'o', 'n', 't', 'h', 'l', 'y']

/-- Model of `DUE_DATE_PATTERN = /#due:(\d{4}-\d{2}-\d{2})/`
(lib/constants.ts): the literal `#due:` followed by the date digits. -/
def DUE_DATE_PATTERN : CShape := litShape dueLits ++ dateDigitsShape

/-- `#due:YYYY-MM-DD` match at the head of a string: returns the captured
date string and the rest. Models the capture group of `DUE_DATE_PATTERN`. -/
def dueAt (s : Str) : Option (Str × Str) :=
  (matchShape DUE_DATE_PATTERN s).map (fun m => (m.1.drop 5, m.2))

/-- Model of `REPEAT_FREQUENCY_PATTERN = /#repeat:(daily|weekly|monthly)/`
(lib/constants.ts): match at the head of a string, returning the captured
frequency and the rest.  The three alternatives have distinct first letters,
so alternation order is immaterial. -/
def repAt (s : Str) : Option (Freq × Str) :=
  match matchShape (litShape (repLits ++ dailyWord)) s with
  | some m => some (.daily, m.2)
  | none =>
    match matchShape (litShape (repLits ++ weeklyWord)) s with
    | some m => some (.weekly, m.2)
    | none =>
      match matchShape (litShape (repLits ++ monthlyWord)) s with
      | some m => some (.monthly, m.2)
      | none => none

/-- Number of positions of `s` at which the head-matcher `f` fires: the
occurrence count of the pattern (its matches contain `#` only at their first
character, so occurrences cannot overlap and this equals the global-match
count). -/
def countAt (f : Str → Option (α × Str)) : Str → Nat
  | [] => 0
  | c :: s => (if (f (c :: s)).isSome then 1 else 0) + countAt f s

/-- First position of `s` at which `f` fires: the text before the match, the
captured value, and the text after the match. -/
def scanFirst (f : Str → Option (α × Str)) : Str → Option (Str × α × Str)
  | [] => none
  | c :: s =>
    match f (c :: s) with
    | some m => some ([], m.1, m.2)
    | none => (scanFirst f s).map (fun r => (c :: r.1, r.2.1, r.2.2))

/-- Remove the first match of `f` from `s` (as JS `String.replace` with a
non-global regex does), returning the remaining text and the captured value
when a match exists. -/
def removeFirst (f : Str → Option (α × Str)) (s : Str) : Str × Option α :=
  match scanFirst f s with
  | some (p, x, r) => (p ++ r, some x)
  | none => (s, none)

def isSpaceB (c : Char) : Bool := c = ' ' || c = '\t'

/-- Trim leading and trailing whitespace (JS `String.trim` restricted to the
blank and tab characters that can occur inside a line). -/
def trimStr (s : Str) : Str :=
  ((s.dropWhile isSpaceB).reverse.dropWhile isSpaceB).reverse

/-- `MAX_DUE_TAG_COUNT = 1` (lib/constants.ts). -/
def MAX_DUE_TAG_COUNT : Nat := 1

/-- `MAX_REPEAT_TAG_COUNT = 1` (lib/constants.ts). -/
def MAX_REPEAT_TAG_COUNT : Nat := 1

/-- Tag validation errors (duplicate `#due` / `#repeat` tag). -/
inductive TagErr where
  | dupDue
  | dupRepeat
deriving DecidableEq, Repr

/-- Modelled from the spec: the Tag Extractor of `lib/markdown.ts` (missing
from the sources here; `lib/constants.ts` supplies its patterns and
`MAX_DUE_TAG_COUNT`/`MAX_REPEAT_TAG_COUNT`).  Given a task line's text it
fails when either tag occurs more than its maximum count; otherwise it
removes the first `#due:YYYY-MM-DD` match and the first
`#repeat:daily|weekly|monthly` match, trims the result, and returns the
cleaned content with the extracted due date and repeat frequency. -/
def extractTags (s : Str) : Except TagErr (Str × Option Str × Option Freq) :=
  if MAX_DUE_TAG_COUNT < countAt dueAt s then .error .dupDue
  else if MAX_REPEAT_TAG_COUNT < countAt repAt s then .error .dupRepeat
  else
    let d := removeFirst dueAt s
    let r := removeFirst repAt d.1
    .ok (trimStr r.1, d.2, r.2)

/-! ## Line Classifier -/

/-- The classification of one source line (spec §4.2). -/
inductive LineKind where
  | title (text : Str)
  | sectionHeader (st : Status)
  | taskLine (level : Nat) (checked : Bool) (rest : Str)
  | other
deriving DecidableEq, Repr

def todoWord : Str := ['T', 'o', 'd', 'o']

def doingWord : Str := ['D', 'o', 'i', 'n', 'g']

def doneWord : Str := ['D', 'o', 'n', 'e']

/-- Section-name-to-status map: `Todo`, `Doing`, `Done` map to the matching
status; unrecognized H2 text defaults to `todo`. -/
def sectionStatusOf (name : Str) : Status :=
  if name = todoWord then .todo
  else if name = doingWord then .doing
  else if name = doneWord then .done
  else .todo

/-- Model of `H2_HEADER_PATTERN = /^## /` (lib/constants.ts). -/
def H2_HEADER_PATTERN (ln : Str) : Bool := ln.take 3 = ['#', '#', ' ']

/-- Model of `H1_HEADER_PATTERN = /^# /` (lib/constants.ts). -/
def H1_HEADER_PATTERN (ln : Str) : Bool := ln.take 2 = ['#', ' ']

/-- Model of the task-line part of `TASK_LINE_PATTERN =
/^(\s*)- \[(x| )\] (.*)/` (lib/constants.ts), applied after the leading
whitespace has been split off. -/
def classifyTask (ws rest : Str) : LineKind :=
  match rest with
  | '-' :: ' ' :: '[' :: c :: ']' :: ' ' :: content =>
    if c = 'x' then .taskLine (ws.length / 4) true content
    else if c = ' ' then .taskLine (ws.length / 4) false content
    else .other
  | _ => .other

/-- Modelled from the spec: the Line Classifier of `lib/markdown.ts` (missing
from the sources here; `lib/constants.ts` supplies its patterns).  A line
starting with `## ` (`H2_HEADER_PATTERN`) is a section header whose status is
mapped by `sectionStatusOf`; otherwise a line starting with `# `
(`H1_HEADER_PATTERN`) is the title; otherwise a line matching
`TASK_LINE_PATTERN` is a task line whose nesting level is its leading
whitespace length divided by 4 (rounded down, spec §4.2); anything else is
ignorable. -/
def classifyLine (ln : Str) : LineKind :=
  if H2_HEADER_PATTERN ln then .sectionHeader (sectionStatusOf (ln.drop 3))
  else if H1_HEADER_PATTERN ln then .title (ln.drop 2)
  else classifyTask (ln.takeWhile isSpaceB) (ln.dropWhile isSpaceB)

/-- Split a text into its lines at each newline character. -/
def splitLines : Str → List Str
  | [] => [[]]
  | c :: rest =>
    if c = '\n' then [] :: splitLines rest
    else
      match splitLines rest with
      | [] => [[c]]
      | l :: ls => (c :: l) :: ls

/-- Join lines with newline separators. -/
def joinLines : List Str → Str
  | [] => []
  | [l] => l
  | l :: ls => l ++ '\n' :: joinLines ls

/-! ## Tree Builder -/

/-- The scalar fields of a task under construction. -/
structure Core where
  id : Str
  content : Str
  status : Status
  dueDate : Option Str
  repeatFrequency : Option Freq
  parentId : Option Str
deriving DecidableEq, Repr

/-- One open node of the indentation stack: its nesting level, its scalar
fields, and its already-closed children in reverse order. -/
structure Frame where
  level : Nat
  core : Core
  revKids : List Task
deriving DecidableEq

/-- Close a frame into a finished task. -/
def closeFrame (f : Frame) : Task :=
  .mk f.core.id f.core.content f.core.status f.core.dueDate
    f.core.repeatFrequency f.core.parentId (Forest.ofList f.revKids.reverse)

/-- Attach a finished task to the top open frame, or to the root accumulator
when the stack is empty. -/
def attachTop : List Frame → List Task → Task → List Frame × List Task
  | [], roots, t => ([], t :: roots)
  | f :: fs, roots, t => ({ f with revKids := t :: f.revKids } :: fs, roots)

/-- Attach the closed task `t` to the first remaining frame and keep popping
frames whose level is `≥ lvl`. -/
def popGEAux (lvl : Nat) (t : Task) : List Frame → List Task → List Frame × List Task
  | [], roots => ([], t :: roots)
  | g :: gs, roots =>
    if lvl ≤ g.level then
      popGEAux lvl (closeFrame { g with revKids := t :: g.revKids }) gs roots
    else ({ g with revKids := t :: g.revKids } :: gs, roots)

/-- Pop every frame whose level is `≥ lvl`, attaching each closed frame to
the frame below it (or to the roots).  Spec §4.3 step 2. -/
def popGE (lvl : Nat) : List Frame → List Task → List Frame × List Task
  | [], roots => ([], roots)
  | f :: fs, roots =>
    if lvl ≤ f.level then popGEAux lvl (closeFrame f) fs roots
    else (f :: fs, roots)

/-- Parse error: the offending 1-based line number and the tag violation. -/
structure ParseErr where
  line : Nat
  kind : TagErr
deriving DecidableEq, Repr

/-- Tree Builder state: title seen so far, current section status, serial id
counter, the open-frame stack, finished roots (reversed), and the 1-based
number of lines consumed. -/
structure BState where
  title : Option Str
  sect : Status
  counter : Nat
  stack : List Frame
  roots : List Task
  lineNo : Nat
deriving DecidableEq

/-- Stable id for the `counter`-th parsed task: project id + serial counter
(spec §4.3 step 4). -/
def mkId (pid : Str) (n : Nat) : Str :=
  pid ++ ['-', 't', 'a', 's', 'k', '-'] ++ (Nat.repr n).toList

/-- Modelled from the spec: one step of the Tree Builder of
`lib/markdown.ts` (missing from the sources here), spec §4.3.  A section
header resets the default status without closing open nesting levels; a task
line runs the Tag Extractor (propagating its error with the offending line
number), pops the stack to find its parent, derives its status from the
checked state (`x` forces `done`) or the current section, and pushes a new
open frame; other lines are ignored. -/
def stepLine (pid : Str) (st : BState) (ln : Str) : Except ParseErr BState :=
  let n := st.lineNo + 1
  match classifyLine ln with
  | .title t => .ok { st with title := some t, lineNo := n }
  | .sectionHeader s => .ok { st with sect := s, lineNo := n }
  | .other => .ok { st with lineNo := n }
  | .taskLine lvl checked rest =>
    match extractTags rest with
    | .error e => .error ⟨n, e⟩
    | .ok (content, due, rep) =>
      let p := popGE lvl st.stack st.roots
      let parentId := p.1.head?.map (fun f => f.core.id)
      let status := if checked then Status.done else st.sect
      let core : Core := ⟨mkId pid st.counter, content, status, due, rep, parentId⟩
      .ok { st with stack := ⟨lvl, core, []⟩ :: p.1, roots := p.2,
                    counter := st.counter + 1, lineNo := n }

/-- Fold the Tree Builder over a list of lines, stopping at the first
validation error. -/
def runLines (pid : Str) : BState → List Str → Except ParseErr BState
  | st, [] => .ok st
  | st, ln :: ls =>
    match stepLine pid st ln with
    | .error e => .error e
    | .ok st₁ => runLines pid st₁ ls

def initState : BState := ⟨none, .todo, 0, [], [], 0⟩

/-- Run the Tree Builder over a line list and finalize: close every open
frame and return the title (empty when no H1 was seen) and the forest. -/
def parseMarkdownLines (pid : Str) (ls : List Str) : Except ParseErr (Str × Forest) :=
  match runLines pid initState ls with
  | .error e => .error e
  | .ok st =>
    let p := popGE 0 st.stack st.roots
    .ok (st.title.getD [], Forest.ofList p.2.reverse)

/-- Modelled from the spec: `parseMarkdown` of `lib/markdown.ts` (missing
from the sources here) as called by the PUT handler - `parseMarkdown(
projectId, content, '')`, i.e. with no prior tree supplied for identity
matching, so every task receives a fresh serial id. -/
def parseMarkdown (pid : Str) (content : Str) : Except ParseErr (Str × Forest) :=
  parseMarkdownLines pid (splitLines content)

/-! ## Renderer -/

def freqStr : Freq → Str
  | .daily => dailyWord
  | .weekly => weeklyWord
  | .monthly => monthlyWord

def dueSuffix : Option Str → Str
  | none => []
  | some d => ' ' :: (dueLits ++ d)

def repSuffix : Option Freq → Str
  | none => []
  | some f => ' ' :: (repLits ++ freqStr f)

/-- `4·lvl` space characters: 4 spaces per nesting level. -/
def indentOf : Nat → Str
  | 0 => []
  | n + 1 => ' ' :: ' ' :: ' ' :: ' ' :: indentOf n

/-- The canonical checkbox line of a task: indentation, `- [x]` iff the
status is `done`, the content, then the due and repeat tags when present. -/
def renderTaskLine (lvl : Nat) (content : Str) (s : Status) (due : Option Str)
    (rep : Option Freq) : Str :=
  indentOf lvl ++ '-' :: ' ' :: '[' :: (if s = .done then 'x' else ' ') ::
    ']' :: ' ' :: (content ++ dueSuffix due ++ repSuffix rep)

mutual
/-- Lines of one task's subtree: its own checkbox line, then its subtasks one
level deeper, regardless of their own status (spec §4.4). -/
def emitTask (lvl : Nat) : Task → List Str
  | .mk _ c s d r _ ts =>
    renderTaskLine lvl c s d r :: emitForest (lvl + 1) ts
/-- Lines of a forest at one level. -/
def emitForest (lvl : Nat) : Forest → List Str
  | .nil => []
  | .cons t ts => emitTask lvl t ++ emitForest lvl ts
end

/-- Keep the top-level tasks whose own status is `s` (a task's section bucket
is determined by its own status). -/
def Forest.filterStatus (s : Status) : Forest → Forest
  | .nil => .nil
  | .cons t ts =>
    if t.status = s then .cons t (Forest.filterStatus s ts)
    else Forest.filterStatus s ts

def sectionNameOf : Status → Str
  | .todo => '#' :: '#' :: ' ' :: todoWord
  | .doing => '#' :: '#' :: ' ' :: doingWord
  | .done => '#' :: '#' :: ' ' :: doneWord

/-- The lines of one status bucket: nothing when the bucket is empty,
otherwise its H2 header followed by the bucket's task subtrees. -/
def bucketLines (s : Status) (f : Forest) : List Str :=
  if Forest.filterStatus s f = .nil then []
  else sectionNameOf s :: emitForest 0 (Forest.filterStatus s f)

/-- Modelled from the spec: the line list of `renderMarkdown` of
`lib/markdown-renderer.ts` (missing from the sources here), spec §4.4: one H1
title line, then one H2 section per non-empty status bucket in the fixed
order Todo, Doing, Done. -/
def renderMarkdownLines (title : Str) (f : Forest) : List Str :=
  ('#' :: ' ' :: title) ::
    (bucketLines .todo f ++ bucketLines .doing f ++ bucketLines .done f)

/-- Modelled from the spec: `renderMarkdown` of `lib/markdown-renderer.ts`
(missing from the sources here) as a text. -/
def renderMarkdown (title : Str) (f : Forest) : Str :=
  joinLines (renderMarkdownLines title f)

/-! ## The PUT /api/v1/projects/[projectId]/raw handler
(embedded from app/api/v1/projects/[projectId]/raw/route.ts) -/

/-- A JSON value as far as the handler inspects it: `typeof content ===
'string'` or anything else. -/
inductive JVal where
  | str (s : Str)
  | other
deriving DecidableEq

/-- The exact field object the handler passes to `updateTask` (route.ts lines
209-214): content, status, dueDate, repeatFrequency — and nothing else. -/
structure UpdateFields where
  content : Str
  status : Status
  dueDate : Option Str
  repeatFrequency : Option Freq
deriving DecidableEq

/-- A storage effect issued by the handler, in program order. -/
inductive StoreOp where
  | deleteTask (id : Str)
  | updateTask (id : Str) (fields : UpdateFields)
  | addTask (projectId : Str) (content : Str) (status : Status)
      (dueDate : Option Str) (parentId : Option Str)
      (repeatFrequency : Option Freq)
  | writeFile (content : Str)
deriving DecidableEq

/-- A JS `Map` keyed by task id: an association list in insertion order;
setting an existing key replaces its value in place. -/
abbrev TaskMap := List (Str × Task)

def mapSet (m : TaskMap) (k : Str) (v : Task) : TaskMap :=
  if m.any (fun p => p.1 = k) then
    m.map (fun p => if p.1 = k then (k, v) else p)
  else m ++ [(k, v)]

def mapHas (m : TaskMap) (k : Str) : Bool := m.any (fun p => p.1 = k)

def mapGet (m : TaskMap) (k : Str) : Option Task :=
  (m.find? (fun p => p.1 = k)).map (fun p => p.2)

mutual
/-- `mapExistingTasks` / `mapNewTasks` of route.ts: set each task by id, then
recurse into its subtasks (preorder). -/
def mapTasksT (m : TaskMap) : Task → TaskMap
  | .mk i c s d r p ts => mapTasksF (mapSet m i (.mk i c s d r p ts)) ts
def mapTasksF (m : TaskMap) : Forest → TaskMap
  | .nil => m
  | .cons t ts => mapTasksF (mapTasksT m t) ts
end

def buildTaskMap (f : Forest) : TaskMap := mapTasksF [] f

def updFieldsOf (t : Task) : UpdateFields :=
  ⟨t.content, t.status, t.dueDate, t.repeatFrequency⟩

/-- The task synchronization of route.ts lines 197-226: delete every id of
the existing map absent from the new map, then for each entry of the new map
update it when the id exists in the existing map and add it otherwise. -/
def syncOps (pid : Str) (existing parsed : Forest) : List StoreOp :=
  let em := buildTaskMap existing
  let nm := buildTaskMap parsed
  (em.filter (fun p => ¬ mapHas nm p.1)).map (fun p => .deleteTask p.1)
    ++ nm.map (fun p =>
      if mapHas em p.1 then .updateTask p.1 (updFieldsOf p.2)
      else .addTask pid p.2.content p.2.status p.2.dueDate p.2.parentId
        p.2.repeatFrequency)

structure Project where
  id : Str
  title : Str
  tasks : Forest
deriving DecidableEq

inductive HResp where
  | ok200
  | bad400
  | unauthorized401
  | notFound404
  | error500
deriving DecidableEq

/-- An error reaching the handler's catch block (`console.error`). -/
inductive LoggedErr where
  | parse (e : ParseErr)
deriving DecidableEq

structure PutOutcome where
  resp : HResp
  ops : List StoreOp
  logged : Option LoggedErr
deriving DecidableEq

/-- The PUT handler of route.ts lines 112-269.  Environment-supplied results
are parameters: `pidValid` (`validateProjectId`), `body` (the `content` field
of the request body), `useSupabase` (the env check, lines 138-141), `userId`
(`auth()`), `project` (`getProject`), `filePathValid`/`fileExists` (the
file-branch checks).  Storage effects appear in `ops` in program order; an
exception (the parse error) reaches the catch block, is logged, and yields
the generic 500 response. -/
def putHandler (projectId : Str) (pidValid : Bool) (body : Option JVal)
    (useSupabase : Bool) (userId : Option Str) (project : Option Project)
    (filePathValid fileExists : Bool) : PutOutcome :=
  if ¬ pidValid then ⟨.bad400, [], none⟩
  else
    match body with
    | some (.str content) =>
      if useSupabase then
        match userId with
        | none => ⟨.unauthorized401, [], none⟩
        | some _ =>
          match project with
          | none => ⟨.notFound404, [], none⟩
          | some proj =>
            match parseMarkdown projectId content with
            | .error e => ⟨.error500, [], some (.parse e)⟩
            | .ok parsed => ⟨.ok200, syncOps projectId proj.tasks parsed.2, none⟩
      else
        if ¬ filePathValid then ⟨.bad400, [], none⟩
        else if ¬ fileExists then ⟨.notFound404, [], none⟩
        else ⟨.ok200, [.writeFile content], none⟩
    | _ => ⟨.bad400, [], none⟩

/-! ## Store rows: applying the handler's effects -/

/-- One stored task row of the persistence collaborator. -/
structure Row where
  id : Str
  content : Str
  status : Status
  dueDate : Option Str
  repeatFrequency : Option Freq
  parentId : Option Str
deriving DecidableEq

/-- Ids transitively reachable from the dead set through `parentId` links,
saturated with `fuel` iterations. -/
def cascadeClosure (rows : List Row) : Nat → List Str → List Str
  | 0, dead => dead
  | n + 1, dead =>
    cascadeClosure rows n
      (dead ++ (rows.filter (fun r =>
        (r.parentId.map dead.contains).getD false && !dead.contains r.id)).map
        (fun r => r.id))

/-- Modelled from the spec: `deleteTask` of the persistence collaborator
(missing from the sources here) cascades to descendants (spec §6). -/
def deleteRows (rows : List Row) (i : Str) : List Row :=
  let dead := cascadeClosure rows rows.length [i]
  rows.filter (fun r => !dead.contains r.id)

/-- Modelled from the spec: the effect of one store operation on the rows.
`updateTask` writes exactly the four carried fields; `addTask` appends a row
whose id the store draws from the supply. -/
def applyOp (rows : List Row) (supply : List Str) :
    StoreOp → List Row × List Str
  | .deleteTask i => (deleteRows rows i, supply)
  | .updateTask i f =>
    (rows.map (fun r =>
      if r.id = i then
        { r with content := f.content, status := f.status,
                 dueDate := f.dueDate, repeatFrequency := f.repeatFrequency }
      else r), supply)
  | .addTask _ c s d p rep =>
    (rows ++ [⟨supply.headD [], c, s, d, rep, p⟩], supply.tail)
  | .writeFile _ => (rows, supply)

def applyOps (rows : List Row) (supply : List Str) : List StoreOp → List Row
  | [] => rows
  | op :: ops =>
    let r := applyOp rows supply op
    applyOps r.1 r.2 ops

/-! ## Recurrence Engine -/

def isLeap (y : Nat) : Bool := (y % 4 = 0 && y % 100 ≠ 0) || y % 400 = 0

def daysInMonth (y m : Nat) : Nat :=
  if m = 2 then (if isLeap y then 29 else 28)
  else if m = 4 || m = 6 || m = 9 || m = 11 then 30
  else 31

structure Date where
  year : Nat
  month : Nat
  day : Nat
deriving DecidableEq

/-- The next calendar day, rolling over month and year ends. -/
def nextDay (d : Date) : Date :=
  if d.day < daysInMonth d.year d.month then ⟨d.year, d.month, d.day + 1⟩
  else if d.month < 12 then ⟨d.year, d.month + 1, 1⟩
  else ⟨d.year + 1, 1, 1⟩

def addDays : Nat → Date → Date
  | 0, d => d
  | n + 1, d => addDays n (nextDay d)

/-- Plus one calendar month, the day-of-month clamped to the target month's
length (spec §4.6: Jan 31 + 1 month = Feb 28/29). -/
def addOneMonthClamped (d : Date) : Date :=
  if d.month < 12 then
    ⟨d.year, d.month + 1, min d.day (daysInMonth d.year (d.month + 1))⟩
  else ⟨d.year + 1, 1, min d.day (daysInMonth (d.year + 1) 1)⟩

def digitVal (c : Char) : Nat := c.toNat - '0'.toNat

/-- Read a `YYYY-MM-DD` string into a date. -/
def parseDate (s : Str) : Option Date :=
  match s with
  | [y1, y2, y3, y4, '-', m1, m2, '-', d1, d2] =>
    if [y1, y2, y3, y4, m1, m2, d1, d2].all isDigitB then
      some ⟨digitVal y1 * 1000 + digitVal y2 * 100 + digitVal y3 * 10 + digitVal y4,
            digitVal m1 * 10 + digitVal m2, digitVal d1 * 10 + digitVal d2⟩
    else none
  | _ => none

def digitChar (n : Nat) : Char := Char.ofNat ('0'.toNat + n)

def pad2 (n : Nat) : Str := [digitChar (n / 10 % 10), digitChar (n % 10)]

def pad4 (n : Nat) : Str :=
  [digitChar (n / 1000 % 10), digitChar (n / 100 % 10),
   digitChar (n / 10 % 10), digitChar (n % 10)]

def formatDate (d : Date) : Str :=
  pad4 d.year ++ '-' :: (pad2 d.month ++ '-' :: pad2 d.day)

/-- The per-frequency date shift: daily → +1 calendar day, weekly → +7
calendar days, monthly → +1 calendar month with day clamping. -/
def shiftDate : Freq → Date → Date
  | .daily, d => nextDay d
  | .weekly, d => addDays 7 d
  | .monthly, d => addOneMonthClamped d

/-- Shift a stored `YYYY-MM-DD` due-date string by one occurrence of the
frequency. -/
def shiftDue (f : Freq) (s : Str) : Option Str :=
  (parseDate s).map (fun d => formatDate (shiftDate f d))

/-- The new-task skeleton handed to the caller's task-creation interface. -/
structure TaskSkeleton where
  content : Str
  status : Status
  dueDate : Option Str
  repeatFrequency : Option Freq
  parentId : Option Str
deriving DecidableEq

/-- Modelled from the spec: the Recurrence Engine (missing from the sources
here; spec §4.6, README "Recurring Tasks").  For a completed task carrying a
repeat frequency it produces a sibling skeleton: same content, same
frequency, same parentId, status `todo`, and the due date shifted by one
occurrence; a task without a due date yields a skeleton without a date
rather than an error. -/
def nextOccurrence (t : Task) : Option TaskSkeleton :=
  t.repeatFrequency.map (fun f =>
    ⟨t.content, .todo, t.dueDate.bind (shiftDue f), t.repeatFrequency,
     t.parentId⟩)

/-! ## Derived notions used by the statements -/

mutual
/-- Preorder list of the ids of a task's subtree. -/
def idsT : Task → List Str
  | .mk i _ _ _ _ _ ts => i :: idsF ts
/-- Preorder list of the ids of a forest. -/
def idsF : Forest → List Str
  | .nil => []
  | .cons t ts => idsT t ++ idsF ts
end

mutual
/-- Position paths (index chains) of the nodes of a task's subtree, the task
itself sitting at `pre ++ [i]`. -/
def pathsT (pre : List Nat) (i : Nat) : Task → List (List Nat)
  | .mk _ _ _ _ _ _ ts => (pre ++ [i]) :: pathsF (pre ++ [i]) 0 ts
/-- Position paths of the nodes of a forest whose first tree sits at ordinal
`i` below the ancestor path `pre`. -/
def pathsF (pre : List Nat) (i : Nat) : Forest → List (List Nat)
  | .nil => []
  | .cons t ts => pathsT pre i t ++ pathsF pre (i + 1) ts
end

/-- The path-by-position set of a forest: ancestor index chain plus ordinal
index among siblings, for every node. -/
def pathsOf (f : Forest) : List (List Nat) := pathsF [] 0 f

mutual
/-- Every node of the subtree has status `done` or status `σ`. -/
def statusOkT (σ : Status) : Task → Bool
  | .mk _ _ st _ _ _ ts => (st = Status.done || st = σ) && statusOkF σ ts
def statusOkF (σ : Status) : Forest → Bool
  | .nil => true
  | .cons t ts => statusOkT σ t && statusOkF σ ts
end

/-- Every top-level task's subtree is status-coherent with the root's own
status (which determines its section bucket in the rendering). -/
def rootStatusOkF : Forest → Bool
  | .nil => true
  | .cons t ts => statusOkT t.status t && rootStatusOkF ts

/-- Content hygiene of a single content string as the Tree Builder leaves it:
trimmed, free of residual due/repeat tag matches, and newline-free. -/
def contentOkC (c : Str) : Bool :=
  (trimStr c = c : Bool) && countAt dueAt c = 0 && countAt repAt c = 0 &&
    c.all (fun ch => ch ≠ '\n')

mutual
/-- Content hygiene of every node of a subtree; a stored due date must have
the `YYYY-MM-DD` digit shape. -/
def contentOkT : Task → Bool
  | .mk _ c _ du _ _ ts =>
    contentOkC c &&
      (match du with
       | none => true
       | some d => shapeFits dateDigitsShape d) && contentOkF ts
def contentOkF : Forest → Bool
  | .nil => true
  | .cons t ts => contentOkT t && contentOkF ts
end

/-- The top-level tasks appear bucket-sorted: all `todo` roots first, then
`doing`, then `done` (the order the renderer emits buckets in). -/
def bucketSorted (f : Forest) : Prop :=
  Forest.append (Forest.filterStatus .todo f)
    (Forest.append (Forest.filterStatus .doing f)
      (Forest.filterStatus .done f)) = f

mutual
/-- The task the Tree Builder reconstructs from the rendering of `t`: fresh
serial ids starting at `ctr`, parent id `pId`, same shape. -/
def buildT (pid : Str) (ctr : Nat) (pId : Option Str) : Task → Task
  | .mk _ c st du rp _ ts =>
    .mk (mkId pid ctr) c st du rp pId
      (buildF pid (ctr + 1) (some (mkId pid ctr)) ts)
def buildF (pid : Str) (ctr : Nat) (pId : Option Str) : Forest → Forest
  | .nil => .nil
  | .cons t ts =>
    .cons (buildT pid ctr pId t) (buildF pid (ctr + Task.size t) pId ts)
end

/-- Attach every task of a forest, in order, to the top frame (or the
roots). -/
def attachF : List Frame × List Task → Forest → List Frame × List Task
  | p, .nil => p
  | p, .cons t ts => attachF (attachTop p.1 p.2 t) ts

/-- Every frame on the stack is open strictly below `lvl` (it is either
empty or its top frame has level `< lvl`; since levels decrease downward in
the stack this characterizes the reachable states after a pop). -/
def StackBelow (lvl : Nat) (st : List Frame) : Prop :=
  st = [] ∨ ∃ f fs, st = f :: fs ∧ f.level < lvl

def ShapeForest.append : ShapeForest → ShapeForest → ShapeForest
  | .nil, g => g
  | .cons s ss, g => .cons s (ShapeForest.append ss g)

/-- The machine view after feeding one rendered subtree at level `lvl` from
state `st`: the stack is first popped to `lvl`, then the rebuilt task (fresh
ids from `st.counter`, parent the popped top frame) is attached on top. -/
def afterT (pid : Str) (st : BState) (lvl : Nat) (t : Task) :
    List Frame × List Task :=
  attachTop (popGE lvl st.stack st.roots).1 (popGE lvl st.stack st.roots).2
    (buildT pid st.counter
      ((popGE lvl st.stack st.roots).1.head?.map (fun f => f.core.id)) t)

/-- The machine view after feeding a rendered forest at level `lvl` from
state `st`: the stack is popped to `lvl` and every rebuilt root is attached
in order. -/
def afterF (pid : Str) (st : BState) (lvl : Nat) (F : Forest) :
    List Frame × List Task :=
  attachF (popGE lvl st.stack st.roots)
    (buildF pid st.counter
      ((popGE lvl st.stack st.roots).1.head?.map (fun f => f.core.id)) F)

/-! ## Concrete fixtures for counterexamples and witnesses -/

/-- An existing forest with one root task with durable id `a`. -/
def exForestA : Forest :=
  .cons (.mk ['a'] ['x'] .todo none none none .nil) .nil

/-- An incoming forest with one root task at the same position whose parsed
id is `b`. -/
def incForestB : Forest :=
  .cons (.mk ['b'] ['x'] .todo none none none .nil) .nil

/-- A document whose nesting crosses a section boundary: the child task line
sits under `## Doing` but attaches to the still-open `## Todo` parent. -/
def docStatusLeak : Str :=
  "# P\n## Todo\n- [ ] parent\n## Doing\n    - [ ] child".toList

/-- A document whose sections appear in the order Done, Todo. -/
def docOrderSwap : Str := "# P\n## Done\n- [x] a\n## Todo\n- [ ] b".toList

/-- A document whose single task line contains one due-tag match whose
removal leaves another due-tag match in the content. -/
def docResidualTag : Str :=
  "# P\n## Todo\n- [ ] #due#due:2024-01-02:2024-03-04".toList

/-- One full round trip through render and parse, checked as the spec's
round-trip law states it: a document whose parse succeeds must re-parse from
its rendering to the same title and the same id-free shape (content, status,
dueDate, repeatFrequency, hierarchy).  Documents that do not parse are not
Tree-Builder-producible and pass vacuously. -/
def roundtripOk (pid : Str) (doc : Str) : Bool :=
  match parseMarkdown pid doc with
  | .error _ => true
  | .ok (t, F) =>
    match parseMarkdown pid (renderMarkdown t F) with
    | .error _ => false
    | .ok (t', F') => t' = t && (Forest.shape F' = Forest.shape F : Bool)

/-- A bucket-sorted, status-coherent, tag-clean forest: a `todo` root with a
due date, a repeat frequency and a `done` subtask, then a `done` root. -/
def witF : Forest :=
  .cons (.mk ['r'] ['A'] .todo
      (some ['2','0','2','5','-','1','1','-','2','3']) (some .daily) none
      (.cons (.mk ['k'] ['B'] .done none none (some ['r']) .nil) .nil))
    (.cons (.mk ['q'] ['C'] .done none none none .nil) .nil)

/-- A well-behaved document used by witnesses. -/
def docGood : Str :=
  "# Proj\n## Todo\n- [ ] Buy milk #due:2025-11-23\n    - [ ] Pick brand\n## Done\n- [x] Setup".toList

/-- An existing forest with two root tasks with ids `a` and `b`. -/
def exForest2 : Forest :=
  .cons (.mk ['a'] ['x'] .todo none none none .nil)
    (.cons (.mk ['b'] ['y'] .todo none none none .nil) .nil)

/-- An incoming forest sharing id `b` (edited) and adding id `c`. -/
def incForest2 : Forest :=
  .cons (.mk ['b'] ['y', '2'] .doing none none none .nil)
    (.cons (.mk ['c'] ['z'] .todo none none none .nil) .nil)

/-! # Theorems

## Shape-matching lemmas -/

theorem shapeFits_length {ps : CShape} {m : Str} (h : shapeFits ps m = true) :
    m.length = ps.length := by
  induction ps generalizing m with
  | nil => cases m with
    | nil => rfl
    | cons c m => simp [shapeFits] at h
  | cons p ps ih =>
    cases m with
    | nil => simp [shapeFits] at h
    | cons c m =>
      simp only [shapeFits, Bool.and_eq_true] at h
      simp [ih h.2]

theorem matchShape_eq_some {ps : CShape} {s m r : Str} :
    matchShape ps s = some (m, r) ↔ shapeFits ps m = true ∧ s = m ++ r := by
  constructor
  · intro h
    unfold matchShape at h
    by_cases hf : shapeFits ps (s.take ps.length) = true
    · simp [hf] at h
      refine ⟨h.1 ▸ hf, ?_⟩
      rw [← h.1, ← h.2, List.take_append_drop]
    · simp [hf] at h
  · rintro ⟨hf, rfl⟩
    have hl : m.length = ps.length := shapeFits_length hf
    unfold matchShape
    rw [← hl, List.take_left, List.drop_left]
    simp [hf]

theorem matchShape_of_fits {ps : CShape} {m r : Str}
    (h : shapeFits ps m = true) : matchShape ps (m ++ r) = some (m, r) :=
  matchShape_eq_some.mpr ⟨h, rfl⟩

theorem shapeFits_mem {ps : CShape} {m : Str} (h : shapeFits ps m = true)
    {c : Char} (hc : c ∈ m) : ∃ p ∈ ps, p c = true := by
  induction ps generalizing m with
  | nil =>
    cases m with
    | nil => simp at hc
    | cons a m => simp [shapeFits] at h
  | cons p ps ih =>
    cases m with
    | nil => simp [shapeFits] at h
    | cons a m =>
      simp only [shapeFits, Bool.and_eq_true] at h
      rcases List.mem_cons.mp hc with rfl | hc
      · exact ⟨p, List.mem_cons_self _ _, h.1⟩
      · obtain ⟨q, hq, hqc⟩ := ih h.2 hc
        exact ⟨q, List.mem_cons_of_mem _ hq, hqc⟩

theorem shapeFits_append {ps qs : CShape} {m₁ m₂ : Str}
    (h₁ : shapeFits ps m₁ = true) (h₂ : shapeFits qs m₂ = true) :
    shapeFits (ps ++ qs) (m₁ ++ m₂) = true := by
  induction ps generalizing m₁ with
  | nil =>
    cases m₁ with
    | nil => simpa using h₂
    | cons c m => simp [shapeFits] at h₁
  | cons p ps ih =>
    cases m₁ with
    | nil => simp [shapeFits] at h₁
    | cons c m =>
      simp only [shapeFits, Bool.and_eq_true] at h₁
      simpa [shapeFits, h₁.1] using ih h₁.2

theorem shapeFits_append_split {ps qs : CShape} {m : Str}
    (h : shapeFits (ps ++ qs) m = true) :
    ∃ m₁ m₂, m = m₁ ++ m₂ ∧ shapeFits ps m₁ = true ∧ shapeFits qs m₂ = true := by
  induction ps generalizing m with
  | nil => exact ⟨[], m, rfl, rfl, by simpa using h⟩
  | cons p ps ih =>
    cases m with
    | nil => simp [shapeFits] at h
    | cons c m =>
      simp only [List.cons_append, shapeFits, Bool.and_eq_true] at h
      obtain ⟨m₁, m₂, rfl, hf₁, hf₂⟩ := ih h.2
      exact ⟨c :: m₁, m₂, rfl, by simp [shapeFits, h.1, hf₁], hf₂⟩

theorem shapeFits_lit {w m : Str} :
    shapeFits (litShape w) m = true ↔ m = w := by
  induction w generalizing m with
  | nil =>
    cases m with
    | nil => simp [litShape, shapeFits]
    | cons c m => simp [litShape, shapeFits]
  | cons a w ih =>
    cases m with
    | nil => simp [litShape, shapeFits]
    | cons c m =>
      have hstep : shapeFits (litShape (a :: w)) (c :: m)
          = (litB a c && shapeFits (litShape w) m) := rfl
      rw [hstep]
      simp only [Bool.and_eq_true, litB, decide_eq_true_eq, ih]
      constructor
      · rintro ⟨rfl, rfl⟩; rfl
      · intro h
        injection h with h1 h2
        exact ⟨h1, h2⟩

/-- A match of a space-free shape cannot straddle a space: if the shape does
not match at the head of `a`, it does not match at the head of
`a ++ ' ' :: b` either. -/
theorem matchShape_append_space {ps : CShape}
    (hns : ∀ p ∈ ps, p ' ' = false) {a b : Str}
    (h : matchShape ps a = none) : matchShape ps (a ++ ' ' :: b) = none := by
  rcases hm : matchShape ps (a ++ ' ' :: b) with _ | ⟨m, r⟩
  · rfl
  · exfalso
    obtain ⟨hf, he⟩ := matchShape_eq_some.mp hm
    rcases List.append_eq_append_iff.mp he with ⟨a', ha, hb⟩ | ⟨c', hc, hd⟩
    · subst ha
      cases a' with
      | nil =>
        simp only [List.append_nil] at hf
        rw [matchShape_eq_some.mpr ⟨hf, (List.append_nil a).symm⟩] at h
        simp at h
      | cons x xs =>
        have hx : x = ' ' := by
          have := congrArg (fun l => l.head?) hb
          simpa using this.symm
        subst hx
        obtain ⟨p, hp, hpc⟩ := shapeFits_mem hf (c := ' ') (by simp)
        rw [hns p hp] at hpc
        exact Bool.false_ne_true hpc
    · subst hc
      rw [matchShape_of_fits hf] at h
      simp at h

theorem matchShape_lit {v s m r : Str} :
    matchShape (litShape v) s = some (m, r) ↔ m = v ∧ s = v ++ r := by
  rw [matchShape_eq_some, shapeFits_lit]
  constructor
  · rintro ⟨rfl, rfl⟩; exact ⟨rfl, rfl⟩
  · rintro ⟨rfl, rfl⟩; exact ⟨rfl, rfl⟩

theorem dueAt_eq_some {s d r : Str} :
    dueAt s = some (d, r) ↔
      shapeFits dateDigitsShape d = true ∧ s = dueLits ++ (d ++ r) := by
  unfold dueAt
  constructor
  · intro h
    obtain ⟨⟨m, r'⟩, hm, he⟩ := Option.map_eq_some'.mp h
    obtain ⟨hf, rfl⟩ := matchShape_eq_some.mp hm
    obtain ⟨m₁, m₂, rfl, h1, h2⟩ := shapeFits_append_split hf
    obtain rfl : m₁ = dueLits := shapeFits_lit.mp h1
    injection he with hd hr
    refine ⟨?_, ?_⟩
    · rw [← hd]
      rw [show (5 : Nat) = dueLits.length from rfl, List.drop_left]
      exact h2
    · rw [← hd, ← hr,
        show (5 : Nat) = dueLits.length from rfl, List.drop_left,
        List.append_assoc]
  · rintro ⟨hf, rfl⟩
    rw [show dueLits ++ (d ++ r) = (dueLits ++ d) ++ r from
      (List.append_assoc _ _ _).symm]
    rw [show matchShape DUE_DATE_PATTERN ((dueLits ++ d) ++ r)
        = some (dueLits ++ d, r) from
      matchShape_of_fits (shapeFits_append (shapeFits_lit.mpr rfl) hf)]
    show some ((dueLits ++ d).drop 5, r) = some (d, r)
    rw [show (5 : Nat) = dueLits.length from rfl, List.drop_left]

theorem repAt_some_elim {s r : Str} {f : Freq}
    (h : repAt s = some (f, r)) : s = repLits ++ (freqStr f ++ r) := by
  unfold repAt at h
  rcases h1 : matchShape (litShape (repLits ++ dailyWord)) s with _ | ⟨m1, r1⟩ <;>
    rw [h1] at h
  · rcases h2 : matchShape (litShape (repLits ++ weeklyWord)) s with _ | ⟨m2, r2⟩ <;>
      rw [h2] at h
    · rcases h3 : matchShape (litShape (repLits ++ monthlyWord)) s with _ | ⟨m3, r3⟩ <;>
        rw [h3] at h
      · cases h
      · obtain ⟨-, hs⟩ := matchShape_lit.mp h3
        obtain ⟨rfl, rfl⟩ : Freq.monthly = f ∧ r3 = r := by
          refine ⟨?_, ?_⟩ <;> cases h <;> rfl
        rw [hs, List.append_assoc]; rfl
    · obtain ⟨-, hs⟩ := matchShape_lit.mp h2
      obtain ⟨rfl, rfl⟩ : Freq.weekly = f ∧ r2 = r := by
        refine ⟨?_, ?_⟩ <;> cases h <;> rfl
      rw [hs, List.append_assoc]; rfl
  · obtain ⟨-, hs⟩ := matchShape_lit.mp h1
    obtain ⟨rfl, rfl⟩ : Freq.daily = f ∧ r1 = r := by
      refine ⟨?_, ?_⟩ <;> cases h <;> rfl
    rw [hs, List.append_assoc]; rfl

theorem matchShape_lit_daily_on_weekly (r : Str) :
    matchShape (litShape (repLits ++ dailyWord)) (repLits ++ (weeklyWord ++ r))
      = none := by
  rcases h : matchShape _ _ with _ | ⟨m, r'⟩
  · rfl
  · obtain ⟨rfl, he⟩ := matchShape_lit.mp h
    simp [repLits, dailyWord, weeklyWord] at he

theorem matchShape_lit_daily_on_monthly (r : Str) :
    matchShape (litShape (repLits ++ dailyWord)) (repLits ++ (monthlyWord ++ r))
      = none := by
  rcases h : matchShape _ _ with _ | ⟨m, r'⟩
  · rfl
  · obtain ⟨rfl, he⟩ := matchShape_lit.mp h
    simp [repLits, dailyWord, monthlyWord] at he

theorem matchShape_lit_weekly_on_monthly (r : Str) :
    matchShape (litShape (repLits ++ weeklyWord)) (repLits ++ (monthlyWord ++ r))
      = none := by
  rcases h : matchShape _ _ with _ | ⟨m, r'⟩
  · rfl
  · obtain ⟨rfl, he⟩ := matchShape_lit.mp h
    simp [repLits, weeklyWord, monthlyWord] at he

theorem repAt_intro (f : Freq) (r : Str) :
    repAt (repLits ++ (freqStr f ++ r)) = some (f, r) := by
  cases f with
  | daily =>
    unfold repAt
    rw [show repLits ++ (freqStr .daily ++ r) = (repLits ++ dailyWord) ++ r from
      by simp [freqStr]]
    rw [matchShape_of_fits (shapeFits_lit.mpr rfl)]
  | weekly =>
    unfold repAt
    rw [show freqStr .weekly = weeklyWord from rfl,
      matchShape_lit_daily_on_weekly,
      show repLits ++ (weeklyWord ++ r) = (repLits ++ weeklyWord) ++ r from
        by simp,
      matchShape_of_fits (shapeFits_lit.mpr rfl)]
  | monthly =>
    unfold repAt
    rw [show freqStr .monthly = monthlyWord from rfl,
      matchShape_lit_daily_on_monthly, matchShape_lit_weekly_on_monthly,
      show repLits ++ (monthlyWord ++ r) = (repLits ++ monthlyWord) ++ r from
        by simp,
      matchShape_of_fits (shapeFits_lit.mpr rfl)]

theorem litShape_no_space {w : Str} (hw : ' ' ∉ w) :
    ∀ p ∈ litShape w, p ' ' = false := by
  intro p hp
  obtain ⟨c, hc, rfl⟩ := List.mem_map.mp hp
  simp only [litB, decide_eq_false_iff_not]
  rintro rfl
  exact hw hc

theorem dateShape_no_space : ∀ p ∈ dateDigitsShape, p ' ' = false := by
  intro p hp
  simp only [dateDigitsShape, List.mem_cons, List.not_mem_nil, or_false] at hp
  rcases hp with rfl | rfl | rfl | rfl | rfl | rfl | rfl | rfl | rfl | rfl <;> rfl

theorem duePattern_no_space : ∀ p ∈ DUE_DATE_PATTERN, p ' ' = false := by
  intro p hp
  rcases List.mem_append.mp hp with h | h
  · exact litShape_no_space (by decide) p h
  · exact dateShape_no_space p h

/-- Space safety of the due matcher. -/
theorem dueAt_append_space {a b : Str} (h : dueAt a = none) :
    dueAt (a ++ ' ' :: b) = none := by
  unfold dueAt at h ⊢
  rcases hm : matchShape DUE_DATE_PATTERN a with _ | p
  · rw [matchShape_append_space duePattern_no_space hm]; rfl
  · rw [hm] at h; cases h

/-- Space safety of the repeat matcher. -/
theorem repAt_append_space {a b : Str} (h : repAt a = none) :
    repAt (a ++ ' ' :: b) = none := by
  unfold repAt at h ⊢
  rcases h1 : matchShape (litShape (repLits ++ dailyWord)) a with _ | p <;>
    rw [h1] at h
  · rcases h2 : matchShape (litShape (repLits ++ weeklyWord)) a with _ | p <;>
      rw [h2] at h
    · rcases h3 : matchShape (litShape (repLits ++ monthlyWord)) a with _ | p <;>
        rw [h3] at h
      · rw [matchShape_append_space (litShape_no_space (by decide)) h1,
          matchShape_append_space (litShape_no_space (by decide)) h2,
          matchShape_append_space (litShape_no_space (by decide)) h3]
      · cases h
    · cases h
  · cases h

/-- Characters of a date-shaped string are digits or dashes, never `#`,
spaces or newlines. -/
theorem dateShape_chars {d : Str} (h : shapeFits dateDigitsShape d = true)
    {c : Char} (hc : c ∈ d) : c.isDigit = true ∨ c = '-' := by
  obtain ⟨p, hp, hpc⟩ := shapeFits_mem h hc
  simp only [dateDigitsShape, List.mem_cons, List.not_mem_nil, or_false] at hp
  rcases hp with rfl | rfl | rfl | rfl | rfl | rfl | rfl | rfl | rfl | rfl
  all_goals first
    | exact Or.inl hpc
    | exact Or.inr (by simpa [litB] using hpc)

theorem dueAt_ne_hash {c : Char} {s : Str} (hc : c ≠ '#') :
    dueAt (c :: s) = none := by
  rcases h : dueAt (c :: s) with _ | ⟨d, r⟩
  · rfl
  · obtain ⟨-, he⟩ := dueAt_eq_some.mp h
    exact absurd (by simpa [dueLits] using congrArg List.head? he) hc

theorem repAt_ne_hash {c : Char} {s : Str} (hc : c ≠ '#') :
    repAt (c :: s) = none := by
  rcases h : repAt (c :: s) with _ | ⟨f, r⟩
  · rfl
  · exact absurd (by simpa [repLits] using congrArg List.head? (repAt_some_elim h)) hc

theorem dueAt_hash_r {s : Str} : dueAt ('#' :: 'r' :: s) = none := by
  rcases h : dueAt ('#' :: 'r' :: s) with _ | ⟨d, r⟩
  · rfl
  · obtain ⟨-, he⟩ := dueAt_eq_some.mp h
    simp [dueLits] at he

theorem repAt_hash_d {s : Str} : repAt ('#' :: 'd' :: 'u' :: s) = none := by
  rcases h : repAt ('#' :: 'd' :: 'u' :: s) with _ | ⟨f, r⟩
  · rfl
  · have he := repAt_some_elim h
    cases f <;> simp [repLits, freqStr, dailyWord, weeklyWord, monthlyWord] at he

/-! ## Occurrence counting and first-match scanning -/

theorem scanFirst_cons_none {α : Type} {f : Str → Option (α × Str)} {c : Char}
    {s : Str} (h : f (c :: s) = none) :
    scanFirst f (c :: s)
      = (scanFirst f s).map (fun r => (c :: r.1, r.2.1, r.2.2)) := by
  conv_lhs => rw [scanFirst]
  rw [h]

theorem scanFirst_cons_some {α : Type} {f : Str → Option (α × Str)} {c : Char}
    {s : Str} {m : α × Str} (h : f (c :: s) = some m) :
    scanFirst f (c :: s) = some ([], m.1, m.2) := by
  conv_lhs => rw [scanFirst]
  rw [h]

theorem countAt_zero_cons {α : Type} {f : Str → Option (α × Str)} {c : Char}
    {s : Str} (h : countAt f (c :: s) = 0) :
    f (c :: s) = none ∧ countAt f s = 0 := by
  rcases hf : f (c :: s) with _ | v
  · simpa [countAt, hf] using h
  · simp [countAt, hf] at h

theorem countAt_append_space {α : Type} {f : Str → Option (α × Str)}
    (hsp : ∀ a b, f a = none → f (a ++ ' ' :: b) = none)
    {a : Str} (h : countAt f a = 0) (b : Str) :
    countAt f (a ++ ' ' :: b) = countAt f (' ' :: b) := by
  induction a with
  | nil => rfl
  | cons c s ih =>
    obtain ⟨h1, h2⟩ := countAt_zero_cons h
    have h1' : f (c :: (s ++ ' ' :: b)) = none := by
      have := hsp (c :: s) b h1
      simpa using this
    simp [countAt, h1', ih h2]

theorem countAt_no_hash {α : Type} {f : Str → Option (α × Str)}
    (hf : ∀ c s, c ≠ '#' → f (c :: s) = none) {x : Str} (hx : '#' ∉ x)
    (v : Str) : countAt f (x ++ v) = countAt f v := by
  induction x with
  | nil => rfl
  | cons c s ih =>
    have hc : c ≠ '#' := fun h => hx (h ▸ List.mem_cons_self _ _)
    have hx' : '#' ∉ s := fun h => hx (List.mem_cons_of_mem _ h)
    simp [countAt, hf c (s ++ v) hc, ih hx']

theorem countAt_pos_split {α : Type} {f : Str → Option (α × Str)} {s : Str}
    (h : 0 < countAt f s) : ∃ u w, s = u ++ w ∧ (f w).isSome = true := by
  induction s with
  | nil => simp [countAt] at h
  | cons c t ih =>
    rcases hf : f (c :: t) with _ | v
    · have h' : 0 < countAt f t := by simpa [countAt, hf] using h
      obtain ⟨u, w, rfl, hw⟩ := ih h'
      exact ⟨c :: u, w, rfl, hw⟩
    · exact ⟨[], c :: t, rfl, by simp [hf]⟩

theorem countAt_pos_of_suffix {α : Type} {f : Str → Option (α × Str)}
    {w : Str} (hne : w ≠ []) (hw : (f w).isSome = true) (x : Str) :
    0 < countAt f (x ++ w) := by
  induction x with
  | nil =>
    cases w with
    | nil => exact absurd rfl hne
    | cons c t => simp [countAt, hw]
  | cons c s ih =>
    have hstep : countAt f ((c :: s) ++ w)
        = (if (f (c :: (s ++ w))).isSome then 1 else 0) + countAt f (s ++ w) := rfl
    rw [hstep]
    exact Nat.lt_of_lt_of_le ih (Nat.le_add_left _ _)

theorem scanFirst_append_space {α : Type} {f : Str → Option (α × Str)}
    (hsp : ∀ a b, f a = none → f (a ++ ' ' :: b) = none)
    {a : Str} (h : countAt f a = 0) (b : Str) :
    scanFirst f (a ++ ' ' :: b)
      = (scanFirst f (' ' :: b)).map (fun r => (a ++ r.1, r.2.1, r.2.2)) := by
  induction a with
  | nil =>
    rcases hr : scanFirst f (' ' :: b) with _ | ⟨p, x, r⟩ <;> simp [hr]
  | cons c s ih =>
    obtain ⟨h1, h2⟩ := countAt_zero_cons h
    have h1' : f (c :: (s ++ ' ' :: b)) = none := by
      have := hsp (c :: s) b h1
      simpa using this
    rw [show (c :: s) ++ ' ' :: b = c :: (s ++ ' ' :: b) from rfl,
      scanFirst_cons_none h1', ih h2, Option.map_map]
    rcases hr : scanFirst f (' ' :: b) with _ | ⟨p, x, r⟩ <;> simp [hr]

theorem scanFirst_no_hash {α : Type} {f : Str → Option (α × Str)}
    (hf : ∀ c s, c ≠ '#' → f (c :: s) = none) {x : Str} (hx : '#' ∉ x)
    (v : Str) :
    scanFirst f (x ++ v)
      = (scanFirst f v).map (fun r => (x ++ r.1, r.2.1, r.2.2)) := by
  induction x with
  | nil =>
    rcases hr : scanFirst f v with _ | ⟨p, y, r⟩ <;> simp [hr]
  | cons c s ih =>
    have hc : c ≠ '#' := fun h => hx (h ▸ List.mem_cons_self _ _)
    have hx' : '#' ∉ s := fun h => hx (List.mem_cons_of_mem _ h)
    rw [show (c :: s) ++ v = c :: (s ++ v) from rfl,
      scanFirst_cons_none (hf c (s ++ v) hc), ih hx', Option.map_map]
    rcases hr : scanFirst f v with _ | ⟨p, y, r⟩ <;> simp [hr]

/-! ## Trimming -/

theorem dropWhile_append_spaces {w x : Str} (hw : ∀ c ∈ w, isSpaceB c = true) :
    (w ++ x).dropWhile isSpaceB = x.dropWhile isSpaceB := by
  induction w with
  | nil => rfl
  | cons c s ih =>
    have hc := hw c (List.mem_cons_self _ _)
    have ih' := ih (fun c hcs => hw c (List.mem_cons_of_mem _ hcs))
    simp [List.dropWhile_cons, hc, ih']

theorem trimStr_cons_space {c : Char} (hc : isSpaceB c = true) (s : Str) :
    trimStr (c :: s) = trimStr s := by
  simp [trimStr, List.dropWhile_cons, hc]

theorem trimStr_append_spaces {w : Str} (hw : ∀ c ∈ w, isSpaceB c = true)
    (a : Str) : trimStr (a ++ w) = trimStr a := by
  induction a with
  | nil =>
    simp [trimStr, List.dropWhile_eq_nil_iff.mpr hw]
  | cons c a ih =>
    by_cases hc : isSpaceB c = true
    · rw [List.cons_append, trimStr_cons_space hc, trimStr_cons_space hc, ih]
    · have hc' : isSpaceB c = false := by
        cases h : isSpaceB c
        · rfl
        · exact absurd h hc
      have hwr : ∀ d ∈ w.reverse, isSpaceB d = true := by
        intro d hd
        exact hw d (List.mem_reverse.mp hd)
      simp only [List.cons_append, trimStr, List.dropWhile_cons, hc',
        Bool.false_eq_true, if_false, List.reverse_cons, List.reverse_append]
      rw [List.append_assoc, dropWhile_append_spaces hwr]

/-! ## The tag regions of a rendered task line -/

theorem scanFirst_count0 {α : Type} {f : Str → Option (α × Str)} {s : Str}
    (h : countAt f s = 0) : scanFirst f s = none := by
  induction s with
  | nil => rfl
  | cons c t ih =>
    obtain ⟨h1, h2⟩ := countAt_zero_cons h
    rw [scanFirst_cons_none h1, ih h2]
    rfl

theorem hash_not_in_date {d : Str} (h : shapeFits dateDigitsShape d = true) :
    '#' ∉ d := by
  intro hc
  rcases dateShape_chars h hc with hd | hd
  · simp [Char.isDigit] at hd
  · cases hd

theorem space_not_in_date {d : Str} (h : shapeFits dateDigitsShape d = true) :
    ' ' ∉ d := by
  intro hc
  rcases dateShape_chars h hc with hd | hd
  · simp [Char.isDigit] at hd
  · cases hd

theorem newline_not_in_date {d : Str} (h : shapeFits dateDigitsShape d = true) :
    '\n' ∉ d := by
  intro hc
  rcases dateShape_chars h hc with hd | hd
  · simp [Char.isDigit] at hd
  · cases hd

theorem dueAt_tag {d : Str} (hfits : shapeFits dateDigitsShape d = true)
    (v : Str) : dueAt (dueLits ++ (d ++ v)) = some (d, v) :=
  dueAt_eq_some.mpr ⟨hfits, rfl⟩

theorem repAt_tag (f : Freq) (v : Str) :
    repAt (repLits ++ (freqStr f ++ v)) = some (f, v) := repAt_intro f v

theorem countAt_dueTag {d : Str} (hfits : shapeFits dateDigitsShape d = true)
    (v : Str) : countAt dueAt (dueLits ++ (d ++ v)) = 1 + countAt dueAt v := by
  have h1 : dueAt (dueLits ++ (d ++ v)) = some (d, v) := dueAt_tag hfits v
  have hx : '#' ∉ 'd' :: 'u' :: 'e' :: ':' :: d := by
    intro hm
    rcases List.mem_cons.mp hm with h | hm
    · cases h
    rcases List.mem_cons.mp hm with h | hm
    · cases h
    rcases List.mem_cons.mp hm with h | hm
    · cases h
    rcases List.mem_cons.mp hm with h | hm
    · cases h
    exact hash_not_in_date hfits hm
  have hrec : countAt dueAt ('d' :: 'u' :: 'e' :: ':' :: (d ++ v))
      = countAt dueAt v := by
    have := countAt_no_hash (fun c s hc => dueAt_ne_hash hc) hx v
    simpa using this
  show (if (dueAt (dueLits ++ (d ++ v))).isSome then 1 else 0)
      + countAt dueAt ('d' :: 'u' :: 'e' :: ':' :: (d ++ v))
      = 1 + countAt dueAt v
  rw [h1, hrec]
  rfl

theorem hash_not_in_freq (f : Freq) :
    '#' ∉ 'r' :: 'e' :: 'p' :: 'e' :: 'a' :: 't' :: ':' :: freqStr f := by
  cases f <;> decide

theorem countAt_repTag (f : Freq) (v : Str) :
    countAt repAt (repLits ++ (freqStr f ++ v)) = 1 + countAt repAt v := by
  have h1 : repAt (repLits ++ (freqStr f ++ v)) = some (f, v) := repAt_intro f v
  have hrec : countAt repAt ('r' :: 'e' :: 'p' :: 'e' :: 'a' :: 't' :: ':' :: (freqStr f ++ v))
      = countAt repAt v := by
    have := countAt_no_hash (fun c s hc => repAt_ne_hash hc) (hash_not_in_freq f) v
    simpa using this
  show (if (repAt (repLits ++ (freqStr f ++ v))).isSome then 1 else 0)
      + countAt repAt ('r' :: 'e' :: 'p' :: 'e' :: 'a' :: 't' :: ':' :: (freqStr f ++ v))
      = 1 + countAt repAt v
  rw [h1, hrec]
  rfl

theorem countAt_dueTag_rep {d : Str} (hfits : shapeFits dateDigitsShape d = true)
    (v : Str) : countAt repAt (dueLits ++ (d ++ v)) = countAt repAt v := by
  have hx : '#' ∉ 'd' :: 'u' :: 'e' :: ':' :: d := by
    intro hm
    rcases List.mem_cons.mp hm with h | hm
    · cases h
    rcases List.mem_cons.mp hm with h | hm
    · cases h
    rcases List.mem_cons.mp hm with h | hm
    · cases h
    rcases List.mem_cons.mp hm with h | hm
    · cases h
    exact hash_not_in_date hfits hm
  have hrec : countAt repAt ('d' :: 'u' :: 'e' :: ':' :: (d ++ v))
      = countAt repAt v := by
    have := countAt_no_hash (fun c s hc => repAt_ne_hash hc) hx v
    simpa using this
  show (if (repAt ('#' :: 'd' :: 'u' :: 'e' :: ':' :: (d ++ v))).isSome then 1 else 0)
      + countAt repAt ('d' :: 'u' :: 'e' :: ':' :: (d ++ v))
      = countAt repAt v
  rw [repAt_hash_d, hrec]
  simp

theorem countAt_repTag_due (f : Freq) (v : Str) :
    countAt dueAt (repLits ++ (freqStr f ++ v)) = countAt dueAt v := by
  have hrec : countAt dueAt ('r' :: 'e' :: 'p' :: 'e' :: 'a' :: 't' :: ':' :: (freqStr f ++ v))
      = countAt dueAt v := by
    have := countAt_no_hash (fun c s hc => dueAt_ne_hash hc) (hash_not_in_freq f) v
    simpa using this
  show (if (dueAt ('#' :: 'r' :: 'e' :: 'p' :: 'e' :: 'a' :: 't' :: ':' :: (freqStr f ++ v))).isSome then 1 else 0)
      + countAt dueAt ('r' :: 'e' :: 'p' :: 'e' :: 'a' :: 't' :: ':' :: (freqStr f ++ v))
      = countAt dueAt v
  rw [dueAt_hash_r, hrec]
  simp

theorem countAt_space_cons {α : Type} {f : Str → Option (α × Str)}
    (hf : ∀ c s, c ≠ '#' → f (c :: s) = none) (v : Str) :
    countAt f (' ' :: v) = countAt f v := by
  show (if (f (' ' :: v)).isSome then 1 else 0) + countAt f v = countAt f v
  rw [hf ' ' v (by decide)]
  simp

theorem scanFirst_dueTag {d : Str} (hfits : shapeFits dateDigitsShape d = true)
    (v : Str) : scanFirst dueAt (dueLits ++ (d ++ v)) = some ([], d, v) :=
  scanFirst_cons_some (dueAt_tag hfits v)

theorem scanFirst_repTag (f : Freq) (v : Str) :
    scanFirst repAt (repLits ++ (freqStr f ++ v)) = some ([], f, v) :=
  scanFirst_cons_some (repAt_tag f v)

/-- Extraction recovers exactly the rendered content and tags: on a string
of the form `content ++ optional due tag ++ optional repeat tag` with clean,
trimmed content, the Tag Extractor returns the content and the two tag
values. -/
theorem extractTags_render (c : Str) (due : Option Str) (rep : Option Freq)
    (hc : trimStr c = c) (hd0 : countAt dueAt c = 0)
    (hr0 : countAt repAt c = 0)
    (hds : ∀ d, due = some d → shapeFits dateDigitsShape d = true) :
    extractTags (c ++ (dueSuffix due ++ repSuffix rep)) = .ok (c, due, rep) := by
  have hspD : ∀ (a b : Str), dueAt a = none → dueAt (a ++ ' ' :: b) = none :=
    fun _ _ h => dueAt_append_space h
  have hspR : ∀ (a b : Str), repAt a = none → repAt (a ++ ' ' :: b) = none :=
    fun _ _ h => repAt_append_space h
  have hhD : ∀ (c : Char) (s : Str), c ≠ '#' → dueAt (c :: s) = none :=
    fun _ _ hch => dueAt_ne_hash hch
  have hhR : ∀ (c : Char) (s : Str), c ≠ '#' → repAt (c :: s) = none :=
    fun _ _ hch => repAt_ne_hash hch
  cases due with
  | none =>
    cases rep with
    | none =>
      simp only [dueSuffix, repSuffix, List.nil_append, List.append_nil]
      unfold extractTags
      rw [hd0, hr0]
      simp [MAX_DUE_TAG_COUNT, MAX_REPEAT_TAG_COUNT, removeFirst,
        scanFirst_count0 hd0, scanFirst_count0 hr0, hc]
    | some f =>
      simp only [dueSuffix, repSuffix, List.nil_append]
      have cd : countAt dueAt (c ++ ' ' :: (repLits ++ freqStr f)) = 0 := by
        rw [countAt_append_space hspD hd0, countAt_space_cons hhD,
          show repLits ++ freqStr f = repLits ++ (freqStr f ++ []) by simp,
          countAt_repTag_due]
        rfl
      have cr : countAt repAt (c ++ ' ' :: (repLits ++ freqStr f)) = 1 := by
        rw [countAt_append_space hspR hr0, countAt_space_cons hhR,
          show repLits ++ freqStr f = repLits ++ (freqStr f ++ []) by simp,
          countAt_repTag]
        rfl
      have sd : scanFirst dueAt (c ++ ' ' :: (repLits ++ freqStr f)) = none :=
        scanFirst_count0 cd
      have sr : scanFirst repAt (c ++ ' ' :: (repLits ++ freqStr f))
          = some (c ++ [' '], f, []) := by
        rw [scanFirst_append_space hspR hr0,
          scanFirst_cons_none (repAt_ne_hash (by decide)),
          show repLits ++ freqStr f = repLits ++ (freqStr f ++ []) by simp,
          scanFirst_repTag]
        simp
      unfold extractTags
      rw [cd, cr]
      simp only [MAX_DUE_TAG_COUNT, MAX_REPEAT_TAG_COUNT]
      simp [removeFirst, sd, sr,
        trimStr_append_spaces (w := [' ']) (by decide) c, hc]
  | some d =>
    have hfits := hds d rfl
    cases rep with
    | none =>
      simp only [dueSuffix, repSuffix, List.append_nil]
      have cd : countAt dueAt (c ++ ' ' :: (dueLits ++ d)) = 1 := by
        rw [countAt_append_space hspD hd0, countAt_space_cons hhD,
          show dueLits ++ d = dueLits ++ (d ++ []) by simp,
          countAt_dueTag hfits]
        rfl
      have cr : countAt repAt (c ++ ' ' :: (dueLits ++ d)) = 0 := by
        rw [countAt_append_space hspR hr0, countAt_space_cons hhR,
          show dueLits ++ d = dueLits ++ (d ++ []) by simp,
          countAt_dueTag_rep hfits]
        rfl
      have sd : scanFirst dueAt (c ++ ' ' :: (dueLits ++ d))
          = some (c ++ [' '], d, []) := by
        rw [scanFirst_append_space hspD hd0,
          scanFirst_cons_none (dueAt_ne_hash (by decide)),
          show dueLits ++ d = dueLits ++ (d ++ []) by simp,
          scanFirst_dueTag hfits]
        simp
      have cr2 : countAt repAt (c ++ [' ']) = 0 := by
        rw [show (c ++ [' '] : Str) = c ++ ' ' :: [] from rfl,
          countAt_append_space hspR hr0, countAt_space_cons hhR]
        rfl
      unfold extractTags
      rw [cd, cr]
      simp only [MAX_DUE_TAG_COUNT, MAX_REPEAT_TAG_COUNT]
      simp [removeFirst, sd, scanFirst_count0 cr2,
        trimStr_append_spaces (w := [' ']) (by decide) c, hc]
    | some f =>
      simp only [dueSuffix, repSuffix]
      have heq : (' ' :: (dueLits ++ d)) ++ ' ' :: (repLits ++ freqStr f)
          = ' ' :: (dueLits ++ (d ++ (' ' :: (repLits ++ (freqStr f ++ []))))) := by
        simp
      rw [heq]
      have cd : countAt dueAt
          (c ++ ' ' :: (dueLits ++ (d ++ (' ' :: (repLits ++ (freqStr f ++ [])))))) = 1 := by
        rw [countAt_append_space hspD hd0, countAt_space_cons hhD,
          countAt_dueTag hfits, countAt_space_cons hhD, countAt_repTag_due]
        rfl
      have cr : countAt repAt
          (c ++ ' ' :: (dueLits ++ (d ++ (' ' :: (repLits ++ (freqStr f ++ [])))))) = 1 := by
        rw [countAt_append_space hspR hr0, countAt_space_cons hhR,
          countAt_dueTag_rep hfits, countAt_space_cons hhR, countAt_repTag]
        rfl
      have sd : scanFirst dueAt
          (c ++ ' ' :: (dueLits ++ (d ++ (' ' :: (repLits ++ (freqStr f ++ []))))))
          = some (c ++ [' '], d, ' ' :: (repLits ++ (freqStr f ++ []))) := by
        rw [scanFirst_append_space hspD hd0,
          scanFirst_cons_none (dueAt_ne_hash (by decide)),
          scanFirst_dueTag hfits]
        simp
      have sr : scanFirst repAt
          (c ++ [' '] ++ (' ' :: (repLits ++ (freqStr f ++ []))))
          = some (c ++ [' ', ' '], f, []) := by
        rw [List.append_assoc,
          show ([' '] : Str) ++ ' ' :: (repLits ++ (freqStr f ++ []))
            = ' ' :: ' ' :: (repLits ++ (freqStr f ++ [])) from rfl,
          scanFirst_append_space hspR hr0,
          scanFirst_cons_none (repAt_ne_hash (by decide)),
          scanFirst_cons_none (repAt_ne_hash (by decide)),
          scanFirst_repTag]
        simp
      unfold extractTags
      rw [cd, cr]
      simp only [MAX_DUE_TAG_COUNT, MAX_REPEAT_TAG_COUNT]
      simp only [removeFirst, sd, sr]
      have htrim : trimStr (c ++ [' ', ' ']) = c := by
        rw [trimStr_append_spaces (w := [' ', ' ']) (by decide) c, hc]
      simp [htrim]

theorem countAt_head_pos {α : Type} {f : Str → Option (α × Str)} {s : Str}
    (hne : s ≠ []) (h : (f s).isSome = true) : 0 < countAt f s := by
  cases s with
  | nil => exact absurd rfl hne
  | cons c t =>
    show 0 < (if (f (c :: t)).isSome then 1 else 0) + countAt f t
    rw [h]
    simp

theorem scanFirst_pos {α : Type} {f : Str → Option (α × Str)} {s : Str}
    (h : 0 < countAt f s) : ∃ p x r, scanFirst f s = some (p, x, r) := by
  induction s with
  | nil => simp [countAt] at h
  | cons c t ih =>
    rcases hf : f (c :: t) with _ | m
    · have h' : 0 < countAt f t := by simpa [countAt, hf] using h
      obtain ⟨p, x, r, hs⟩ := ih h'
      exact ⟨c :: p, x, r, by rw [scanFirst_cons_none hf, hs]; rfl⟩
    · exact ⟨[], m.1, m.2, scanFirst_cons_some hf⟩

theorem scanFirst_some_elim {α : Type} {f : Str → Option (α × Str)}
    {s p r : Str} {x : α} (h : scanFirst f s = some (p, x, r)) :
    ∃ w, s = p ++ w ∧ f w = some (x, r) := by
  induction s generalizing p with
  | nil => cases h
  | cons c t ih =>
    rcases hf : f (c :: t) with _ | m
    · rw [scanFirst_cons_none hf] at h
      rcases hs : scanFirst f t with _ | ⟨p', x', r'⟩ <;> rw [hs] at h
      · cases h
      · simp only [Option.map_some'] at h
        obtain ⟨hp, hx, hr⟩ : c :: p' = p ∧ x' = x ∧ r' = r := by
          refine ⟨?_, ?_, ?_⟩ <;> cases h <;> rfl
        subst hp; subst hx; subst hr
        obtain ⟨w, rfl, hw⟩ := ih hs
        exact ⟨w, rfl, hw⟩
    · rw [scanFirst_cons_some hf] at h
      obtain ⟨hp, hx, hr⟩ : ([] : Str) = p ∧ m.1 = x ∧ m.2 = r := by
        refine ⟨?_, ?_, ?_⟩ <;> cases h <;> rfl
      subst hp; subst hx; subst hr
      exact ⟨c :: t, rfl, by rw [hf]⟩

/-- Removing a due-tag segment cannot destroy a repeat-tag occurrence: the
two kinds of match never overlap, since a match contains `#` only at its
first character. -/
theorem rep_survives {d : Str} (hfits : shapeFits dateDigitsShape d = true)
    (p r : Str) (h : 0 < countAt repAt (p ++ (dueLits ++ (d ++ r)))) :
    0 < countAt repAt (p ++ r) := by
  induction p with
  | nil =>
    rw [List.nil_append, countAt_dueTag_rep hfits] at h
    simpa using h
  | cons c p' ih =>
    rcases hfire : repAt (c :: (p' ++ (dueLits ++ (d ++ r)))) with _ | ⟨fq, w'⟩
    · have h' : 0 < countAt repAt (p' ++ (dueLits ++ (d ++ r))) := by
        have hc : countAt repAt (c :: (p' ++ (dueLits ++ (d ++ r))))
            = (if (repAt (c :: (p' ++ (dueLits ++ (d ++ r))))).isSome then 1 else 0)
              + countAt repAt (p' ++ (dueLits ++ (d ++ r))) := rfl
        rw [List.cons_append, hc, hfire] at h
        simpa using h
      have := ih h'
      show 0 < countAt repAt (c :: (p' ++ r))
      have hc : countAt repAt (c :: (p' ++ r))
          = (if (repAt (c :: (p' ++ r))).isSome then 1 else 0)
            + countAt repAt (p' ++ r) := rfl
      rw [hc]
      exact Nat.lt_of_lt_of_le this (Nat.le_add_left _ _)
    · have heq := repAt_some_elim hfire
      have heq' : (repLits ++ freqStr fq) ++ w'
          = (c :: p') ++ (dueLits ++ (d ++ r)) := by
        rw [List.append_assoc]
        exact heq.symm
      rcases List.append_eq_append_iff.mp heq' with ⟨t, ht, hw⟩ | ⟨t, ht, hw⟩
      · -- the whole repeat tag sits inside `c :: p'`
        have hgoal : (c :: p') ++ r = repLits ++ (freqStr fq ++ (t ++ r)) := by
          rw [ht]
          simp
        show 0 < countAt repAt ((c :: p') ++ r)
        rw [hgoal]
        refine countAt_head_pos (by simp [repLits]) ?_
        rw [repAt_intro]
        rfl
      · -- the repeat tag would have to extend into the due tag: impossible
        cases t with
        | nil =>
          rw [List.append_nil] at ht
          show 0 < countAt repAt ((c :: p') ++ r)
          rw [← ht,
            show (repLits ++ freqStr fq) ++ r = repLits ++ (freqStr fq ++ r) from
              List.append_assoc _ _ _]
          refine countAt_head_pos (by simp [repLits]) ?_
          rw [repAt_intro]
          rfl
        | cons t₀ t₁ =>
          exfalso
          have ht₀ : t₀ = '#' := by
            have hh := congrArg List.head? hw
            exact (by simpa [dueLits] using hh : '#' = t₀).symm
          subst ht₀
          simp only [repLits, List.cons_append, List.nil_append] at ht
          injection ht with hc2 htail
          have hmem : '#' ∈ 'r' :: 'e' :: 'p' :: 'e' :: 'a' :: 't' :: ':' :: freqStr fq := by
            rw [htail]
            exact List.mem_append.mpr (Or.inr (List.mem_cons_self _ _))
          exact absurd hmem (hash_not_in_freq fq)

/-! ## Claims C4 and C5 -/

/-- C4: for every task line, the Tag Extractor fails with a validation error
when the due tag or the repeat tag occurs more than its maximum count
(`MAX_DUE_TAG_COUNT = MAX_REPEAT_TAG_COUNT = 1`); on success the line
contained at most one occurrence of each; and a line containing exactly one
occurrence of each parses successfully with both values recovered. -/
theorem c4_tag_uniqueness (s : Str) :
    (MAX_DUE_TAG_COUNT < countAt dueAt s ∨
        MAX_REPEAT_TAG_COUNT < countAt repAt s →
      ∃ e, extractTags s = .error e) ∧
    (∀ c d r, extractTags s = .ok (c, d, r) →
      countAt dueAt s ≤ MAX_DUE_TAG_COUNT ∧
        countAt repAt s ≤ MAX_REPEAT_TAG_COUNT) ∧
    (countAt dueAt s = 1 → countAt repAt s = 1 →
      ∃ c d f, extractTags s = .ok (c, some d, some f)) := by
  refine ⟨?_, ?_, ?_⟩
  · intro h
    unfold extractTags
    by_cases h1 : MAX_DUE_TAG_COUNT < countAt dueAt s
    · exact ⟨.dupDue, by rw [if_pos h1]⟩
    · rcases h with h | h
      · exact absurd h h1
      · exact ⟨.dupRepeat, by rw [if_neg h1, if_pos h]⟩
  · intro c d r hok
    unfold extractTags at hok
    by_cases h1 : MAX_DUE_TAG_COUNT < countAt dueAt s
    · rw [if_pos h1] at hok; cases hok
    · by_cases h2 : MAX_REPEAT_TAG_COUNT < countAt repAt s
      · rw [if_neg h1, if_pos h2] at hok; cases hok
      · exact ⟨Nat.le_of_not_lt h1, Nat.le_of_not_lt h2⟩
  · intro hd1 hr1
    obtain ⟨p, dv, r, hscan⟩ := scanFirst_pos (f := dueAt)
      (s := s) (by rw [hd1]; exact Nat.one_pos)
    obtain ⟨w, rfl, hw⟩ := scanFirst_some_elim hscan
    obtain ⟨hfits, hwe⟩ := dueAt_eq_some.mp hw
    have hrm1 : removeFirst dueAt (p ++ w) = (p ++ r, some dv) := by
      simp [removeFirst, hscan]
    have hrep : 0 < countAt repAt (p ++ r) := by
      refine rep_survives hfits p r ?_
      rw [← hwe, hr1]
      exact Nat.one_pos
    obtain ⟨p2, fv, r2, hscan2⟩ := scanFirst_pos hrep
    have hrm2 : removeFirst repAt (p ++ r) = (p2 ++ r2, some fv) := by
      simp [removeFirst, hscan2]
    refine ⟨trimStr (p2 ++ r2), dv, fv, ?_⟩
    unfold extractTags
    rw [if_neg (by rw [hd1]; decide), if_neg (by rw [hr1]; decide)]
    simp [hrm1, hrm2]

/-- C4 witness: a line with two due tags errors; a line with one tag of each
kind succeeds with both values present. -/
theorem c4_tag_uniqueness_witness :
    (∃ e, extractTags ("a #due:2025-01-02 #due:2025-01-03".toList)
      = .error e) ∧
    (∃ c d f, extractTags ("b #due:2025-01-02 #repeat:daily".toList)
      = .ok (c, some d, some f)) :=
  ⟨(c4_tag_uniqueness _).1 (Or.inl (by decide)),
   (c4_tag_uniqueness _).2.2 (by decide) (by decide)⟩

/-- C5 counterexample: the due-date pattern checks digit shape only, so
`#due:2025-13-40` — month 13, day 40, both outside the ranges the claim
states — is accepted as a due date by the Tag Extractor. -/
theorem c5_counterexample :
    extractTags ("task #due:2025-13-40".toList)
      = .ok ("task".toList, some ("2025-13-40".toList), none)
    ∧ 12 < 13 ∧ 31 < 40 :=
  ⟨rfl, by decide, by decide⟩

/-- C5 (amended): a `#due:` tag is extracted as a due date exactly when its
date part matches the digit shape `\d{4}-\d{2}-\d{2}`; no range constraint on
the month or day digits, and no calendar validity, is checked. -/
theorem c5_due_digit_shape (s : Str) :
    (∀ c d r, extractTags s = .ok (c, some d, r) →
      shapeFits dateDigitsShape d = true) ∧
    (∀ d, shapeFits dateDigitsShape d = true →
      extractTags (dueSuffix (some d)) = .ok ([], some d, none)) := by
  constructor
  · intro c d r hok
    unfold extractTags at hok
    by_cases h1 : MAX_DUE_TAG_COUNT < countAt dueAt s
    · rw [if_pos h1] at hok; cases hok
    · by_cases h2 : MAX_REPEAT_TAG_COUNT < countAt repAt s
      · rw [if_neg h1, if_pos h2] at hok; cases hok
      · rw [if_neg h1, if_neg h2] at hok
        rcases hscan : scanFirst dueAt s with _ | ⟨p, dd, rr⟩
        · simp only [removeFirst, hscan] at hok
          injection hok with h3
          injection h3 with h4 h5
          injection h5 with h6 h7
          cases h6
        · simp only [removeFirst, hscan] at hok
          injection hok with h3
          injection h3 with h4 h5
          injection h5 with h6 h7
          injection h6 with h6'
          subst h6'
          obtain ⟨w, hsw, hw⟩ := scanFirst_some_elim hscan
          exact (dueAt_eq_some.mp hw).1
  · intro d hfits
    have h := extractTags_render [] (some d) none rfl rfl rfl
      (fun d' hd' => by cases hd'; exact hfits)
    simpa [repSuffix] using h

/-- C5 witness: the amended theorem applied at the month-13 date. -/
theorem c5_due_digit_shape_witness :
    shapeFits dateDigitsShape ("2025-13-40".toList) = true ∧
    extractTags (dueSuffix (some ("2025-13-40".toList)))
      = .ok ([], some ("2025-13-40".toList), none) :=
  ⟨by decide, (c5_due_digit_shape []).2 _ (by decide)⟩

/-! ## Claims C6, C7, C10, C3 -/

/-- C6: for every completed task carrying a repeat frequency,
`nextOccurrence` produces a skeleton with the same content, frequency and
parentId, status `todo`, and the due date shifted by one occurrence of the
frequency (`shiftDate`: daily → next calendar day, weekly → +7 calendar
days, monthly → +1 calendar month with the day clamped to the target
month's length); when the task has no due date, no date is emitted and no
error is raised. -/
theorem c6_recurrence (t : Task) (f : Freq)
    (hf : t.repeatFrequency = some f) :
    ∃ sk, nextOccurrence t = some sk ∧ sk.content = t.content ∧
      sk.repeatFrequency = some f ∧ sk.parentId = t.parentId ∧
      sk.status = .todo ∧ sk.dueDate = t.dueDate.bind (shiftDue f) ∧
      (t.dueDate = none → sk.dueDate = none) := by
  refine ⟨⟨t.content, .todo, t.dueDate.bind (shiftDue f), t.repeatFrequency,
    t.parentId⟩, ?_, rfl, hf, rfl, rfl, rfl, ?_⟩
  · unfold nextOccurrence
    rw [hf]
    rfl
  · intro h
    rw [h]
    rfl

/-- C6 witness: the theorem applied to a concrete daily task, plus the
concrete shifts of the spec's examples: 2025-11-23 daily → 2025-11-24;
2025-01-31 monthly → 2025-02-28 (non-leap); 2024-01-31 monthly → 2024-02-29
(leap); weekly +7 with month rollover; a task without a due date emits no
date. -/
theorem c6_recurrence_witness :
    (∃ sk, nextOccurrence (Task.mk ['t'] ['c'] .done
        (some ("2025-11-23".toList)) (some .daily) (some ['p']) .nil)
        = some sk ∧
      sk.content = (Task.mk ['t'] ['c'] .done (some ("2025-11-23".toList))
        (some .daily) (some ['p']) .nil).content ∧
      sk.repeatFrequency = some .daily ∧
      sk.parentId = (Task.mk ['t'] ['c'] .done (some ("2025-11-23".toList))
        (some .daily) (some ['p']) .nil).parentId ∧
      sk.status = .todo ∧
      sk.dueDate = (Task.mk ['t'] ['c'] .done (some ("2025-11-23".toList))
        (some .daily) (some ['p']) .nil).dueDate.bind (shiftDue .daily) ∧
      ((Task.mk ['t'] ['c'] .done (some ("2025-11-23".toList))
        (some .daily) (some ['p']) .nil).dueDate = none →
        sk.dueDate = none)) ∧
    shiftDue .daily ("2025-11-23".toList) = some ("2025-11-24".toList) ∧
    shiftDue .weekly ("2025-11-27".toList) = some ("2025-12-04".toList) ∧
    shiftDue .monthly ("2025-01-31".toList) = some ("2025-02-28".toList) ∧
    shiftDue .monthly ("2024-01-31".toList) = some ("2024-02-29".toList) ∧
    (nextOccurrence (Task.mk ['t'] ['c'] .done none (some .daily) none .nil)).map
      TaskSkeleton.dueDate = some none :=
  ⟨c6_recurrence _ .daily rfl, rfl, rfl, rfl, rfl, rfl⟩

/-- C7: a line is classified as a section header exactly when it matches the
H2 pattern `^## `; the names `Todo`, `Doing`, `Done` map to the matching
status, and any other H2 text is still a section boundary whose status
defaults to `todo`. -/
theorem c7_section_classifier (ln : Str) :
    ((∃ st, classifyLine ln = .sectionHeader st) ↔
      H2_HEADER_PATTERN ln = true) ∧
    (∀ rest, classifyLine ('#' :: '#' :: ' ' :: rest)
      = .sectionHeader (sectionStatusOf rest)) ∧
    sectionStatusOf todoWord = .todo ∧ sectionStatusOf doingWord = .doing ∧
    sectionStatusOf doneWord = .done ∧
    (∀ name, name ≠ todoWord → name ≠ doingWord → name ≠ doneWord →
      sectionStatusOf name = .todo) := by
  refine ⟨⟨?_, ?_⟩, ?_, rfl, rfl, rfl, ?_⟩
  · rintro ⟨st, hst⟩
    by_cases h2 : H2_HEADER_PATTERN ln = true
    · exact h2
    · exfalso
      unfold classifyLine at hst
      rw [if_neg (by simpa using h2)] at hst
      by_cases h1 : H1_HEADER_PATTERN ln = true
      · rw [if_pos (by simpa using h1)] at hst
        cases hst
      · rw [if_neg (by simpa using h1)] at hst
        unfold classifyTask at hst
        split at hst
        · split at hst
          · cases hst
          · split at hst
            · cases hst
            · cases hst
        · cases hst
  · intro h2
    refine ⟨sectionStatusOf (ln.drop 3), ?_⟩
    unfold classifyLine
    rw [if_pos (by simpa using h2)]
  · intro rest
    unfold classifyLine
    rw [if_pos (by simp [H2_HEADER_PATTERN])]
    rfl
  · intro name h1 h2 h3
    unfold sectionStatusOf
    rw [if_neg h1, if_neg h2, if_neg h3]

/-- C7 witness: the theorem applied at an unrecognized H2 header and at
`## Doing`. -/
theorem c7_section_classifier_witness :
    classifyLine ("## Whatever".toList) = .sectionHeader .todo ∧
    classifyLine ("## Doing".toList) = .sectionHeader .doing := by
  constructor
  · rw [show ("## Whatever".toList : Str)
        = '#' :: '#' :: ' ' :: "Whatever".toList from rfl,
      (c7_section_classifier []).2.1 ("Whatever".toList)]
    rfl
  · rw [show ("## Doing".toList : Str)
        = '#' :: '#' :: ' ' :: "Doing".toList from rfl,
      (c7_section_classifier []).2.1 ("Doing".toList)]
    rfl

/-- C10: a PUT request whose body's content field is not a string receives a
400 response, with no parse performed and no storage effect — no deleteTask,
updateTask, addTask or file write — in either storage mode. -/
theorem c10_bad_content (projectId : Str) (pidValid : Bool)
    (body : Option JVal) (useSb : Bool) (uid : Option Str)
    (proj : Option Project) (fpV fE : Bool)
    (hbody : ∀ s, body ≠ some (.str s)) :
    putHandler projectId pidValid body useSb uid proj fpV fE
      = ⟨.bad400, [], none⟩ := by
  unfold putHandler
  cases pidValid with
  | false => rfl
  | true =>
    rcases body with _ | j
    · rfl
    · cases j with
      | str s => exact absurd rfl (hbody s)
      | other => rfl

/-- C10 witness: the theorem applied to a request with a non-string content
field. -/
theorem c10_bad_content_witness :
    putHandler ['p'] true (some .other) true (some ['u'])
      (some ⟨['p'], ['T'], .nil⟩) true true = ⟨.bad400, [], none⟩ :=
  c10_bad_content ['p'] true (some .other) true (some ['u'])
    (some ⟨['p'], ['T'], .nil⟩) true true (fun s h => by cases h)

/-- C3: when parsing the submitted document fails, the PUT handler returns
the 500 error response, the parse error — carrying the offending line
number — reaches the handler's catch block and is logged, and no store
operation is issued: nothing is applied before the whole document parses. -/
theorem c3_parse_error_atomic (projectId content u : Str) (proj : Project)
    (fpV fE : Bool) (e : ParseErr)
    (hparse : parseMarkdown projectId content = .error e) :
    putHandler projectId true (some (.str content)) true (some u)
      (some proj) fpV fE = ⟨.error500, [], some (.parse e)⟩ := by
  unfold putHandler
  simp [hparse]

/-- C3 witness: a document whose third line holds two due tags parses to the
error with line number 3, and the handler maps it to a 500 with no store
operations. -/
theorem c3_parse_error_atomic_witness :
    parseMarkdown ("p".toList)
      ("# T\n## Todo\n- [ ] a #due:2025-01-02 #due:2025-01-03".toList)
      = .error ⟨3, .dupDue⟩ ∧
    putHandler ("p".toList) true
      (some (.str ("# T\n## Todo\n- [ ] a #due:2025-01-02 #due:2025-01-03".toList)))
      true (some ['u']) (some ⟨['p'], ['T'], .nil⟩) true true
      = ⟨.error500, [], some (.parse ⟨3, .dupDue⟩)⟩ :=
  ⟨rfl, c3_parse_error_atomic _ _ _ _ true true _ rfl⟩

/-! ## Task-map lemmas -/

theorem mapHas_iff {m : TaskMap} {k : Str} :
    mapHas m k = true ↔ ∃ p ∈ m, p.1 = k := by
  unfold mapHas
  rw [List.any_eq_true]
  constructor
  · rintro ⟨p, hp, hpk⟩
    exact ⟨p, hp, of_decide_eq_true hpk⟩
  · rintro ⟨p, hp, hpk⟩
    exact ⟨p, hp, decide_eq_true hpk⟩

theorem mapHas_mapSet {m : TaskMap} {k k' : Str} {v : Task} :
    mapHas (mapSet m k v) k' = true ↔ mapHas m k' = true ∨ k' = k := by
  unfold mapSet
  by_cases hk : m.any (fun p => p.1 = k) = true
  · rw [if_pos hk]
    constructor
    · intro h
      obtain ⟨p, hp, hpk⟩ := mapHas_iff.mp h
      obtain ⟨q, hq, hqe⟩ := List.mem_map.mp hp
      by_cases hqk : q.1 = k
      · rw [if_pos hqk] at hqe
        subst hqe
        exact Or.inr hpk.symm
      · rw [if_neg hqk] at hqe
        subst hqe
        exact Or.inl (mapHas_iff.mpr ⟨q, hq, hpk⟩)
    · intro h
      rcases h with h | hke
      · obtain ⟨p, hp, hpk⟩ := mapHas_iff.mp h
        by_cases hpk2 : p.1 = k
        · refine mapHas_iff.mpr
            ⟨(k, v), List.mem_map.mpr ⟨p, hp, by rw [if_pos hpk2]⟩, ?_⟩
          show k = k'
          rw [← hpk2, hpk]
        · exact mapHas_iff.mpr
            ⟨p, List.mem_map.mpr ⟨p, hp, by rw [if_neg hpk2]⟩, hpk⟩
      · obtain ⟨q, hq, hqk⟩ := mapHas_iff.mp hk
        refine mapHas_iff.mpr
          ⟨(k, v), List.mem_map.mpr ⟨q, hq, by rw [if_pos hqk]⟩, ?_⟩
        show k = k'
        rw [hke]
  · rw [if_neg hk]
    constructor
    · intro h
      obtain ⟨p, hp, hpk⟩ := mapHas_iff.mp h
      rcases List.mem_append.mp hp with hmem | hmem
      · exact Or.inl (mapHas_iff.mpr ⟨p, hmem, hpk⟩)
      · rw [List.mem_singleton] at hmem
        subst hmem
        exact Or.inr hpk.symm
    · intro h
      rcases h with h | hke
      · obtain ⟨p, hp, hpk⟩ := mapHas_iff.mp h
        exact mapHas_iff.mpr ⟨p, List.mem_append.mpr (Or.inl hp), hpk⟩
      · refine mapHas_iff.mpr
          ⟨(k, v), List.mem_append.mpr (Or.inr ?_), hke.symm⟩
        exact List.mem_singleton.mpr rfl

mutual
theorem mapTasksT_has (m : TaskMap) (t : Task) (k : Str) :
    mapHas (mapTasksT m t) k = true ↔ mapHas m k = true ∨ k ∈ idsT t := by
  cases t with
  | mk i c s d r p ts =>
    rw [show mapTasksT m (.mk i c s d r p ts)
      = mapTasksF (mapSet m i (.mk i c s d r p ts)) ts from rfl]
    rw [mapTasksF_has]
    rw [mapHas_mapSet]
    show _ ↔ mapHas m k = true ∨ k ∈ i :: idsF ts
    rw [List.mem_cons]
    tauto
theorem mapTasksF_has (m : TaskMap) (f : Forest) (k : Str) :
    mapHas (mapTasksF m f) k = true ↔ mapHas m k = true ∨ k ∈ idsF f := by
  cases f with
  | nil => simp [mapTasksF, idsF]
  | cons t ts =>
    rw [show mapTasksF m (.cons t ts) = mapTasksF (mapTasksT m t) ts from rfl]
    rw [mapTasksF_has, mapTasksT_has]
    show _ ↔ mapHas m k = true ∨ k ∈ idsT t ++ idsF ts
    rw [List.mem_append]
    tauto
end

theorem buildTaskMap_has {f : Forest} {k : Str} :
    mapHas (buildTaskMap f) k = true ↔ k ∈ idsF f := by
  unfold buildTaskMap
  rw [mapTasksF_has]
  simp [mapHas]

theorem mapGet_mem {m : TaskMap} {i : Str} {t : Task}
    (h : mapGet m i = some t) : (i, t) ∈ m := by
  unfold mapGet at h
  rcases hf : m.find? (fun p => p.1 = i) with _ | p
  · rw [hf] at h; cases h
  · rw [hf] at h
    have hp : p.2 = t := by cases h; rfl
    have hpi : p.1 = i := by
      have := List.find?_some hf
      simpa using this
    have hmem := List.mem_of_find?_eq_some hf
    rw [← hpi, ← hp]
    exact hmem

theorem mapGet_isSome_has {m : TaskMap} {i : Str} {t : Task}
    (h : mapGet m i = some t) : mapHas m i = true :=
  mapHas_iff.mpr ⟨(i, t), mapGet_mem h, rfl⟩

/-! ## Membership in the sync operation list -/

theorem syncOps_delete_mem {pid : Str} {ex inc : Forest} {i : Str} :
    StoreOp.deleteTask i ∈ syncOps pid ex inc ↔
      i ∈ idsF ex ∧ i ∉ idsF inc := by
  unfold syncOps
  rw [List.mem_append]
  constructor
  · rintro (h | h)
    · obtain ⟨p, hp, hop⟩ := List.mem_map.mp h
      obtain ⟨hpm, hpnot⟩ := List.mem_filter.mp hp
      obtain rfl : p.1 = i := by cases hop; rfl
      refine ⟨buildTaskMap_has.mp (mapHas_iff.mpr ⟨p, hpm, rfl⟩), ?_⟩
      intro hmem
      rw [← buildTaskMap_has] at hmem
      simp [hmem] at hpnot
    · exfalso
      obtain ⟨p, hp, hop⟩ := List.mem_map.mp h
      by_cases hm : mapHas (buildTaskMap ex) p.1 = true
      · rw [if_pos hm] at hop; cases hop
      · rw [if_neg hm] at hop; cases hop
  · rintro ⟨hex, hninc⟩
    obtain ⟨p, hp, hpk⟩ := mapHas_iff.mp (buildTaskMap_has.mpr hex)
    refine Or.inl (List.mem_map.mpr ⟨p, List.mem_filter.mpr ⟨hp, ?_⟩, by rw [hpk]⟩)
    have : mapHas (buildTaskMap inc) p.1 = false := by
      rw [hpk]
      cases hh : mapHas (buildTaskMap inc) i
      · rfl
      · exact absurd (buildTaskMap_has.mp hh) hninc
    simp [this]

theorem syncOps_update_mem {pid : Str} {ex inc : Forest} {i : Str}
    {flds : UpdateFields} :
    StoreOp.updateTask i flds ∈ syncOps pid ex inc ↔
      ∃ v, (i, v) ∈ buildTaskMap inc ∧ mapHas (buildTaskMap ex) i = true ∧
        flds = updFieldsOf v := by
  unfold syncOps
  rw [List.mem_append]
  constructor
  · rintro (h | h)
    · exfalso
      obtain ⟨p, hp, hop⟩ := List.mem_map.mp h
      cases hop
    · obtain ⟨p, hp, hop⟩ := List.mem_map.mp h
      by_cases hm : mapHas (buildTaskMap ex) p.1 = true
      · rw [if_pos hm] at hop
        obtain ⟨rfl, rfl⟩ : p.1 = i ∧ updFieldsOf p.2 = flds := by
          refine ⟨?_, ?_⟩ <;> cases hop <;> rfl
        exact ⟨p.2, by simpa using hp, hm, rfl⟩
      · rw [if_neg hm] at hop
        cases hop
  · rintro ⟨v, hv, hm, rfl⟩
    refine Or.inr (List.mem_map.mpr ⟨(i, v), hv, ?_⟩)
    rw [if_pos hm]

theorem syncOps_add_mem {pid : Str} {ex inc : Forest} {pid' c : Str}
    {s : Status} {d : Option Str} {par : Option Str} {rp : Option Freq} :
    StoreOp.addTask pid' c s d par rp ∈ syncOps pid ex inc ↔
      pid' = pid ∧ ∃ q, q ∈ buildTaskMap inc ∧
        mapHas (buildTaskMap ex) q.1 = false ∧ c = q.2.content ∧
        s = q.2.status ∧ d = q.2.dueDate ∧ par = q.2.parentId ∧
        rp = q.2.repeatFrequency := by
  unfold syncOps
  rw [List.mem_append]
  constructor
  · rintro (h | h)
    · exfalso
      obtain ⟨p, hp, hop⟩ := List.mem_map.mp h
      cases hop
    · obtain ⟨p, hp, hop⟩ := List.mem_map.mp h
      by_cases hm : mapHas (buildTaskMap ex) p.1 = true
      · rw [if_pos hm] at hop
        cases hop
      · rw [if_neg hm] at hop
        obtain ⟨h1, h2, h3, h4, h5, h6⟩ : pid = pid' ∧ p.2.content = c ∧
            p.2.status = s ∧ p.2.dueDate = d ∧ p.2.parentId = par ∧
            p.2.repeatFrequency = rp := by
          refine ⟨?_, ?_, ?_, ?_, ?_, ?_⟩ <;> cases hop <;> rfl
        refine ⟨h1.symm, p, hp, ?_, h2.symm, h3.symm, h4.symm, h5.symm, h6.symm⟩
        cases hmm : mapHas (buildTaskMap ex) p.1
        · rfl
        · exact absurd hmm hm
  · rintro ⟨rfl, q, hq, hqm, rfl, rfl, rfl, rfl, rfl⟩
    refine Or.inr (List.mem_map.mpr ⟨q, hq, ?_⟩)
    rw [if_neg (by simp [hqm])]

theorem syncOps_split (pid : Str) (ex inc : Forest) :
    ∃ dels rest, syncOps pid ex inc = dels ++ rest ∧
      (∀ op ∈ dels, ∃ j, op = StoreOp.deleteTask j) ∧
      (∀ op ∈ rest, ∀ j, op ≠ StoreOp.deleteTask j) := by
  refine ⟨_, _, rfl, ?_, ?_⟩
  · intro op hop
    obtain ⟨p, hp, hop'⟩ := List.mem_map.mp hop
    exact ⟨p.1, hop'.symm⟩
  · intro op hop j
    obtain ⟨p, hp, hop'⟩ := List.mem_map.mp hop
    by_cases hm : mapHas (buildTaskMap ex) p.1 = true
    · rw [if_pos hm] at hop'
      rw [← hop']
      intro h
      cases h
    · rw [if_neg hm] at hop'
      rw [← hop']
      intro h
      cases h

/-- Applying any operation list never changes the stored parent of a row
whose id is neither freshly drawn from the supply nor empty: `updateTask`
carries no parentId, `deleteTask` only removes rows, and `addTask` appends
rows with supply ids. -/
theorem applyOps_parent_stable (i : Str) (ops : List StoreOp) :
    ∀ (rows : List Row) (supply : List Str), i ∉ supply → i ≠ [] →
      ∀ r ∈ applyOps rows supply ops, r.id = i →
        ∃ r₀ ∈ rows, r₀.id = i ∧ r.parentId = r₀.parentId := by
  induction ops with
  | nil =>
    intro rows supply _ _ r hr hri
    exact ⟨r, hr, hri, rfl⟩
  | cons op ops ih =>
    intro rows supply hsup hne r hr hri
    cases op with
    | deleteTask j =>
      obtain ⟨r₀, hr₀, hid, hpar⟩ := ih (deleteRows rows j) supply hsup hne r hr hri
      exact ⟨r₀, List.mem_of_mem_filter hr₀, hid, hpar⟩
    | updateTask j f =>
      obtain ⟨r₀, hr₀, hid, hpar⟩ := ih _ supply hsup hne r hr hri
      obtain ⟨r₁, hr₁, hge⟩ := List.mem_map.mp hr₀
      by_cases hj : r₁.id = j
      · rw [if_pos hj] at hge
        subst hge
        exact ⟨r₁, hr₁, hid, hpar⟩
      · rw [if_neg hj] at hge
        subst hge
        exact ⟨r₁, hr₁, hid, hpar⟩
    | addTask pid c s d par rp =>
      have hsup' : i ∉ supply.tail := fun h => hsup (List.mem_of_mem_tail h)
      obtain ⟨r₀, hr₀, hid, hpar⟩ := ih _ supply.tail hsup' hne r hr hri
      rcases List.mem_append.mp hr₀ with hmem | hmem
      · exact ⟨r₀, hmem, hid, hpar⟩
      · exfalso
        rw [List.mem_singleton] at hmem
        subst hmem
        cases supply with
        | nil => exact hne hid.symm
        | cons s₀ ss => exact hsup (by rw [← hid]; exact List.mem_cons_self _ _)
    | writeFile content =>
      exact ih rows supply hsup hne r hr hri

/-! ## Claims C9, C8, C1 -/

/-- C9: in the document-resubmission sync, deleteTask is issued exactly for
the ids present in the existing task map and absent from the parsed
document's task map; all deletions precede every update and creation; and an
id present in the parsed document is never deleted. -/
theorem c9_delete_discipline (pid : Str) (ex inc : Forest) :
    (∀ i, StoreOp.deleteTask i ∈ syncOps pid ex inc ↔
      i ∈ idsF ex ∧ i ∉ idsF inc) ∧
    (∃ dels rest, syncOps pid ex inc = dels ++ rest ∧
      (∀ op ∈ dels, ∃ j, op = StoreOp.deleteTask j) ∧
      (∀ op ∈ rest, ∀ j, op ≠ StoreOp.deleteTask j)) ∧
    (∀ i, i ∈ idsF inc → StoreOp.deleteTask i ∉ syncOps pid ex inc) :=
  ⟨fun _ => syncOps_delete_mem,
   syncOps_split pid ex inc,
   fun _ hi hmem => (syncOps_delete_mem.mp hmem).2 hi⟩

/-- C9 witness: with existing ids `a, b` and parsed ids `b, c`, only `a` is
deleted and `b` is never deleted. -/
theorem c9_delete_discipline_witness :
    StoreOp.deleteTask ['a'] ∈ syncOps ['p'] exForest2 incForest2 ∧
    StoreOp.deleteTask ['b'] ∉ syncOps ['p'] exForest2 incForest2 :=
  ⟨((c9_delete_discipline ['p'] exForest2 incForest2).1 ['a']).mpr
      ⟨by decide, by decide⟩,
   (c9_delete_discipline ['p'] exForest2 incForest2).2.2 ['b'] (by decide)⟩

/-- C8: for an id present in both the existing and the parsed task maps, the
sync issues an update carrying exactly the four fields content, status,
dueDate and repeatFrequency of the parsed task; every update op carries that
field record and nothing else — parentId is never passed — so applying the
whole operation list leaves the stored parent of every surviving row with
that id unchanged. -/
theorem c8_update_fields_only (pid : Str) (ex inc : Forest) (i : Str)
    (t : Task) (hex : mapHas (buildTaskMap ex) i = true)
    (hinc : mapGet (buildTaskMap inc) i = some t) :
    StoreOp.updateTask i (updFieldsOf t) ∈ syncOps pid ex inc ∧
    (∀ flds, StoreOp.updateTask i flds ∈ syncOps pid ex inc →
      ∃ v, (i, v) ∈ buildTaskMap inc ∧ flds = updFieldsOf v) ∧
    (∀ rows supply, i ∉ supply → i ≠ [] →
      ∀ r ∈ applyOps rows supply (syncOps pid ex inc), r.id = i →
        ∃ r₀ ∈ rows, r₀.id = i ∧ r.parentId = r₀.parentId) := by
  refine ⟨?_, ?_, ?_⟩
  · exact syncOps_update_mem.mpr ⟨t, mapGet_mem hinc, hex, rfl⟩
  · intro flds h
    obtain ⟨v, hv, -, he⟩ := syncOps_update_mem.mp h
    exact ⟨v, hv, he⟩
  · intro rows supply h1 h2
    exact applyOps_parent_stable i _ rows supply h1 h2

/-- C8 witness: the matched id `b` receives exactly the four-field update of
its parsed task, and a concrete stored row with id `b` keeps its parent. -/
theorem c8_update_fields_only_witness :
    StoreOp.updateTask ['b']
      (updFieldsOf (Task.mk ['b'] ['y', '2'] .doing none none none .nil))
      ∈ syncOps ['p'] exForest2 incForest2 ∧
    (∀ r ∈ applyOps [⟨['b'], ['y'], .todo, none, none, some ['q']⟩] [['n']]
        (syncOps ['p'] exForest2 incForest2), r.id = ['b'] →
      ∃ r₀ ∈ [(⟨['b'], ['y'], .todo, none, none, some ['q']⟩ : Row)],
        r₀.id = ['b'] ∧ r.parentId = r₀.parentId) :=
  ⟨(c8_update_fields_only ['p'] exForest2 incForest2 ['b'] _ (by decide) rfl).1,
   (c8_update_fields_only ['p'] exForest2 incForest2 ['b']
      (Task.mk ['b'] ['y', '2'] .doing none none none .nil) (by decide) rfl).2.2
     _ _ (by decide) (by decide)⟩

/-- C1 counterexample: two forests that are positionally identical (the same
path-by-position set, so every node has a positional match) are nevertheless
reconciled by deleting the existing node and creating the incoming one — no
match, no id carry-over — because the sync matches by id, not by position. -/
theorem c1_counterexample :
    pathsOf exForestA = pathsOf incForestB ∧
    syncOps ['p'] exForestA incForestB
      = [StoreOp.deleteTask ['a'],
         StoreOp.addTask ['p'] ['x'] .todo none none none] :=
  ⟨rfl, rfl⟩

/-- C1 (amended): the reconciliation step matches by task id: an incoming
node is matched to an existing node exactly when they carry the same id (the
matched id is updated); every existing id absent from the incoming forest is
scheduled for deletion; every incoming node whose id is absent from the
existing forest becomes a creation carrying the incoming node's fields and
parentId. -/
theorem c1_id_reconciliation (pid : Str) (ex inc : Forest) :
    (∀ i, StoreOp.deleteTask i ∈ syncOps pid ex inc ↔
      i ∈ idsF ex ∧ i ∉ idsF inc) ∧
    (∀ i, (∃ flds, StoreOp.updateTask i flds ∈ syncOps pid ex inc) ↔
      i ∈ idsF inc ∧ i ∈ idsF ex) ∧
    (∀ q ∈ buildTaskMap inc, q.1 ∉ idsF ex →
      StoreOp.addTask pid q.2.content q.2.status q.2.dueDate q.2.parentId
        q.2.repeatFrequency ∈ syncOps pid ex inc) ∧
    (∀ pid' c s d par rp,
      StoreOp.addTask pid' c s d par rp ∈ syncOps pid ex inc →
      pid' = pid ∧ ∃ q ∈ buildTaskMap inc, q.1 ∉ idsF ex ∧
        c = q.2.content ∧ s = q.2.status ∧ d = q.2.dueDate ∧
        par = q.2.parentId ∧ rp = q.2.repeatFrequency) := by
  refine ⟨fun _ => syncOps_delete_mem, ?_, ?_, ?_⟩
  · intro i
    constructor
    · rintro ⟨flds, h⟩
      obtain ⟨v, hv, hm, -⟩ := syncOps_update_mem.mp h
      exact ⟨buildTaskMap_has.mp (mapHas_iff.mpr ⟨(i, v), hv, rfl⟩),
        buildTaskMap_has.mp hm⟩
    · rintro ⟨hinc, hex⟩
      obtain ⟨p, hp, hpk⟩ := mapHas_iff.mp (buildTaskMap_has.mpr hinc)
      refine ⟨updFieldsOf p.2, syncOps_update_mem.mpr
        ⟨p.2, ?_, buildTaskMap_has.mpr hex, rfl⟩⟩
      rw [← hpk]
      exact hp
  · intro q hq hnq
    refine syncOps_add_mem.mpr ⟨rfl, q, hq, ?_, rfl, rfl, rfl, rfl, rfl⟩
    cases hm : mapHas (buildTaskMap ex) q.1
    · rfl
    · exact absurd (buildTaskMap_has.mp hm) hnq
  · intro pid' c s d par rp h
    obtain ⟨rfl, q, hq, hqm, h1, h2, h3, h4, h5⟩ := syncOps_add_mem.mp h
    refine ⟨rfl, q, hq, ?_, h1, h2, h3, h4, h5⟩
    intro hmem
    rw [← buildTaskMap_has] at hmem
    rw [hmem] at hqm
    cases hqm

/-- C1 witness: the amended characterization applied at the two-root
fixtures — id `a` is deleted, id `b` is updated, id `c` becomes a
creation. -/
theorem c1_id_reconciliation_witness :
    StoreOp.deleteTask ['a'] ∈ syncOps ['p'] exForest2 incForest2 ∧
    (∃ flds, StoreOp.updateTask ['b'] flds
      ∈ syncOps ['p'] exForest2 incForest2) ∧
    StoreOp.addTask ['p'] ['z'] .todo none none none
      ∈ syncOps ['p'] exForest2 incForest2 :=
  ⟨((c1_id_reconciliation ['p'] exForest2 incForest2).1 ['a']).mpr
      ⟨by decide, by decide⟩,
   ((c1_id_reconciliation ['p'] exForest2 incForest2).2.1 ['b']).mpr
      ⟨by decide, by decide⟩,
   (c1_id_reconciliation ['p'] exForest2 incForest2).2.2.1
      (['c'], Task.mk ['c'] ['z'] .todo none none none .nil)
      (by decide) (by decide)⟩

/-! ## Lines of a document -/

theorem splitLines_no_newline {l : Str} (h : '\n' ∉ l) :
    splitLines l = [l] := by
  induction l with
  | nil => rfl
  | cons c t ih =>
    have hc : c ≠ '\n' := fun hx => h (hx ▸ List.mem_cons_self _ _)
    have ht : '\n' ∉ t := fun hx => h (List.mem_cons_of_mem _ hx)
    unfold splitLines
    rw [if_neg hc, ih ht]

theorem splitLines_ne_nil (s : Str) : splitLines s ≠ [] := by
  cases s with
  | nil => simp [splitLines]
  | cons c rest =>
    unfold splitLines
    by_cases hc : c = '\n'
    · rw [if_pos hc]
      simp
    · rw [if_neg hc]
      rcases hs : splitLines rest with _ | ⟨l, ls⟩ <;> simp

theorem splitLines_cons_ne {c : Char} (hc : c ≠ '\n') (s : Str) :
    ∃ l ls, splitLines s = l :: ls ∧ splitLines (c :: s) = (c :: l) :: ls := by
  rcases hs : splitLines s with _ | ⟨l, ls⟩
  · exact absurd hs (splitLines_ne_nil s)
  · refine ⟨l, ls, rfl, ?_⟩
    unfold splitLines
    rw [if_neg hc, hs]

theorem splitLines_append_newline {l : Str} (hnl : '\n' ∉ l) (rest : Str) :
    splitLines (l ++ '\n' :: rest) = l :: splitLines rest := by
  induction l with
  | nil =>
    show splitLines ('\n' :: rest) = [] :: splitLines rest
    conv_lhs => unfold splitLines
    rw [if_pos rfl]
  | cons c t ih =>
    have hc : c ≠ '\n' := fun hx => hnl (hx ▸ List.mem_cons_self _ _)
    have ht : '\n' ∉ t := fun hx => hnl (List.mem_cons_of_mem _ hx)
    show splitLines (c :: (t ++ '\n' :: rest)) = (c :: t) :: splitLines rest
    obtain ⟨l₁, ls₁, h1, h2⟩ := splitLines_cons_ne hc (t ++ '\n' :: rest)
    rw [ih ht] at h1
    injection h1 with e1 e2
    rw [h2, ← e1, ← e2]

theorem splitLines_joinLines {ls : List Str} (hne : ls ≠ [])
    (hnl : ∀ l ∈ ls, '\n' ∉ l) : splitLines (joinLines ls) = ls := by
  induction ls with
  | nil => exact absurd rfl hne
  | cons l ls ih =>
    cases ls with
    | nil =>
      show splitLines (joinLines [l]) = [l]
      exact splitLines_no_newline (hnl l (List.mem_cons_self _ _))
    | cons l₂ ls₂ =>
      rw [show joinLines (l :: l₂ :: ls₂) = l ++ '\n' :: joinLines (l₂ :: ls₂)
        from rfl]
      rw [splitLines_append_newline (hnl l (List.mem_cons_self _ _))]
      rw [ih (by intro h; cases h)
        (fun x hx => hnl x (List.mem_cons_of_mem _ hx))]

/-! ## Classifying rendered lines -/

theorem classify_title (title : Str) :
    classifyLine ('#' :: ' ' :: title) = .title title := by
  unfold classifyLine
  rw [if_neg (by simp [H2_HEADER_PATTERN, List.take]),
    if_pos (by rfl : H1_HEADER_PATTERN ('#' :: ' ' :: title) = true)]
  rfl

theorem classify_section (st : Status) :
    classifyLine (sectionNameOf st) = .sectionHeader st := by
  cases st <;> rfl

theorem takeWhile_indent (lvl : Nat) {c : Char} (hc : isSpaceB c = false)
    (s : Str) :
    (indentOf lvl ++ c :: s).takeWhile isSpaceB = indentOf lvl ∧
    (indentOf lvl ++ c :: s).dropWhile isSpaceB = c :: s := by
  induction lvl with
  | zero =>
    simp [indentOf, List.takeWhile_cons, List.dropWhile_cons, hc]
  | succ n ih =>
    simp only [indentOf, List.cons_append, List.takeWhile_cons,
      List.dropWhile_cons, show isSpaceB ' ' = true from rfl, if_true]
    simp [ih]

theorem indentOf_length (lvl : Nat) : (indentOf lvl).length = 4 * lvl := by
  induction lvl with
  | zero => rfl
  | succ n ih =>
    simp only [indentOf, List.length_cons, ih]
    ring

theorem classify_taskLine (lvl : Nat) {box : Char}
    (hbox : box = 'x' ∨ box = ' ') (rest : Str) :
    classifyLine (indentOf lvl ++ '-' :: ' ' :: '[' :: box :: ']' :: ' ' :: rest)
      = .taskLine lvl (box = 'x') rest := by
  have hdash : isSpaceB '-' = false := rfl
  obtain ⟨htake, hdrop⟩ := takeWhile_indent lvl hdash
    (' ' :: '[' :: box :: ']' :: ' ' :: rest)
  have hdiv : (indentOf lvl).length / 4 = lvl := by
    rw [indentOf_length]
    exact Nat.mul_div_cancel_left lvl (by norm_num)
  have hred : classifyTask (indentOf lvl)
      ('-' :: ' ' :: '[' :: box :: ']' :: ' ' :: rest)
      = if box = 'x' then .taskLine ((indentOf lvl).length / 4) true rest
        else if box = ' ' then
          .taskLine ((indentOf lvl).length / 4) false rest
        else .other := rfl
  have hTask : classifyTask (indentOf lvl)
      ('-' :: ' ' :: '[' :: box :: ']' :: ' ' :: rest)
      = .taskLine lvl (box = 'x') rest := by
    rw [hred, hdiv]
    rcases hbox with rfl | rfl
    · rw [if_pos rfl]
      simp
    · rw [if_neg (by decide), if_pos rfl]
      simp
  cases lvl with
  | zero =>
    unfold classifyLine
    rw [if_neg (by simp [H2_HEADER_PATTERN, List.take, indentOf]),
      if_neg (by simp [H1_HEADER_PATTERN, List.take, indentOf])]
    exact hTask
  | succ n =>
    unfold classifyLine
    rw [if_neg (by simp [H2_HEADER_PATTERN, List.take, indentOf]),
      if_neg (by simp [H1_HEADER_PATTERN, List.take, indentOf])]
    rw [htake, hdrop]
    exact hTask

/-! ## Stack-machine lemmas -/

theorem popGEAux_cons (lvl : Nat) (t : Task) (g : Frame) (gs : List Frame)
    (roots : List Task) :
    popGEAux lvl t (g :: gs) roots
      = if lvl ≤ g.level then
          popGEAux lvl (closeFrame { g with revKids := t :: g.revKids })
            gs roots
        else ({ g with revKids := t :: g.revKids } :: gs, roots) := rfl

theorem popGE_cons (lvl : Nat) (f : Frame) (fs : List Frame)
    (roots : List Task) :
    popGE lvl (f :: fs) roots
      = if lvl ≤ f.level then popGEAux lvl (closeFrame f) fs roots
        else (f :: fs, roots) := rfl

theorem popGE_lt {lvl : Nat} {f : Frame} (h : f.level < lvl) (fs : List Frame)
    (roots : List Task) : popGE lvl (f :: fs) roots = (f :: fs, roots) := by
  rw [popGE_cons, if_neg (Nat.not_le.mpr h)]

theorem popGEAux_below (lvl : Nat) :
    ∀ (fs : List Frame) (t : Task) (roots : List Task),
      StackBelow lvl (popGEAux lvl t fs roots).1 := by
  intro fs
  induction fs with
  | nil =>
    intro t roots
    left
    rfl
  | cons g gs ih =>
    intro t roots
    rw [popGEAux_cons]
    by_cases h : lvl ≤ g.level
    · rw [if_pos h]
      exact ih _ roots
    · rw [if_neg h]
      exact Or.inr ⟨_, gs, rfl, Nat.not_le.mp h⟩

theorem popGE_below (lvl : Nat) (s : List Frame) (roots : List Task) :
    StackBelow lvl (popGE lvl s roots).1 := by
  cases s with
  | nil => exact Or.inl rfl
  | cons f fs =>
    rw [popGE_cons]
    by_cases h : lvl ≤ f.level
    · rw [if_pos h]
      exact popGEAux_below lvl fs _ roots
    · rw [if_neg h]
      exact Or.inr ⟨f, fs, rfl, Nat.not_le.mp h⟩

theorem popGE_of_below {lvl : Nat} {s : List Frame} (h : StackBelow lvl s)
    (roots : List Task) : popGE lvl s roots = (s, roots) := by
  rcases h with rfl | ⟨f, fs, rfl, hf⟩
  · rfl
  · exact popGE_lt hf fs roots

theorem popGE_popGEAux {l lvl : Nat} (hl : l ≤ lvl) :
    ∀ (fs : List Frame) (t : Task) (roots : List Task),
      popGE l (popGEAux lvl t fs roots).1 (popGEAux lvl t fs roots).2
        = popGEAux l t fs roots := by
  intro fs
  induction fs with
  | nil =>
    intro t roots
    rfl
  | cons g gs ih =>
    intro t roots
    by_cases h : lvl ≤ g.level
    · rw [popGEAux_cons lvl, if_pos h, ih, popGEAux_cons l,
        if_pos (le_trans hl h)]
    · rw [popGEAux_cons lvl, if_neg h]
      by_cases h2 : l ≤ g.level
      · rw [popGE_cons, if_pos h2, popGEAux_cons l t g gs roots, if_pos h2]
      · rw [popGE_lt (show ({ g with revKids := t :: g.revKids }
            : Frame).level < l from Nat.not_le.mp h2) gs roots]
        rw [popGEAux_cons l t g gs roots, if_neg h2]

theorem popGE_popGE {l lvl : Nat} (hl : l ≤ lvl) (s : List Frame)
    (roots : List Task) :
    popGE l (popGE lvl s roots).1 (popGE lvl s roots).2 = popGE l s roots := by
  cases s with
  | nil => rfl
  | cons f fs =>
    by_cases h : lvl ≤ f.level
    · rw [popGE_cons lvl, if_pos h, popGE_popGEAux hl, popGE_cons l,
        if_pos (le_trans hl h)]
    · rw [popGE_cons lvl, if_neg h]

theorem attachTop_below {lvl : Nat} {st : List Frame} {rts : List Task}
    {t : Task} (h : StackBelow lvl st) :
    StackBelow lvl (attachTop st rts t).1 := by
  rcases h with rfl | ⟨f, fs, rfl, hf⟩
  · exact Or.inl rfl
  · exact Or.inr ⟨_, fs, rfl, hf⟩

theorem attachF_below {lvl : Nat} :
    ∀ (F : Forest) (p : List Frame × List Task), StackBelow lvl p.1 →
      StackBelow lvl (attachF p F).1
  | .nil, p, h => h
  | .cons t ts, p, h => attachF_below ts _ (attachTop_below h)

theorem attachF_nil_stack :
    ∀ (F : Forest) (rts : List Task),
      attachF ([], rts) F = ([], (Forest.toList F).reverse ++ rts)
  | .nil, rts => rfl
  | .cons t ts, rts => by
    show attachF ([], t :: rts) ts = _
    rw [attachF_nil_stack ts (t :: rts)]
    simp [Forest.toList]

theorem attachF_cons_stack :
    ∀ (F : Forest) (f : Frame) (fs : List Frame) (rts : List Task),
      attachF (f :: fs, rts) F
        = ({ f with revKids := (Forest.toList F).reverse ++ f.revKids } :: fs,
           rts)
  | .nil, f, fs, rts => by
    show (f :: fs, rts) = _
    simp [Forest.toList]
  | .cons t ts, f, fs, rts => by
    show attachF ({ f with revKids := t :: f.revKids } :: fs, rts) ts = _
    rw [attachF_cons_stack ts]
    simp [Forest.toList]

theorem runLines_cons (pid : Str) (st : BState) (ln : Str) (ls : List Str) :
    runLines pid st (ln :: ls)
      = match stepLine pid st ln with
        | .error e => .error e
        | .ok st₁ => runLines pid st₁ ls := rfl

theorem runLines_append {pid : Str} {st st₁ : BState} {a : List Str}
    (h : runLines pid st a = .ok st₁) (b : List Str) :
    runLines pid st (a ++ b) = runLines pid st₁ b := by
  induction a generalizing st with
  | nil =>
    obtain rfl : st = st₁ := by cases h; rfl
    rfl
  | cons ln ls ih =>
    rw [runLines_cons] at h
    rw [show (ln :: ls) ++ b = ln :: (ls ++ b) from rfl, runLines_cons]
    rcases hs : stepLine pid st ln with e | st' <;> rw [hs] at h
    · cases h
    · exact ih h

theorem stepLine_title (pid : Str) (st : BState) (title : Str) :
    stepLine pid st ('#' :: ' ' :: title)
      = .ok { st with title := some title, lineNo := st.lineNo + 1 } := by
  unfold stepLine
  rw [classify_title]

theorem stepLine_section (pid : Str) (st : BState) (σ : Status) :
    stepLine pid st (sectionNameOf σ)
      = .ok { st with sect := σ, lineNo := st.lineNo + 1 } := by
  unfold stepLine
  rw [classify_section]

theorem stepLine_of_classify {ln : Str} {lvl : Nat} {checked : Bool}
    {rest : Str} (pid : Str) (st : BState)
    (h : classifyLine ln = .taskLine lvl checked rest) :
    stepLine pid st ln
      = match extractTags rest with
        | .error e => .error ⟨st.lineNo + 1, e⟩
        | .ok (content, due, rep) =>
          .ok { st with
            stack := ⟨lvl,
              ⟨mkId pid st.counter, content,
               (if checked then Status.done else st.sect), due, rep,
               (popGE lvl st.stack st.roots).1.head?.map
                 (fun f => f.core.id)⟩, []⟩
                :: (popGE lvl st.stack st.roots).1,
            roots := (popGE lvl st.stack st.roots).2,
            counter := st.counter + 1, lineNo := st.lineNo + 1 } := by
  unfold stepLine
  rw [h]

theorem stepLine_task (pid : Str) (st : BState) (lvl : Nat) (c : Str)
    (status : Status) (du : Option Str) (rp : Option Freq)
    (htrim : trimStr c = c) (hd0 : countAt dueAt c = 0)
    (hr0 : countAt repAt c = 0)
    (hds : ∀ d, du = some d → shapeFits dateDigitsShape d = true)
    (hst : status = .done ∨ status = st.sect) :
    stepLine pid st (renderTaskLine lvl c status du rp)
      = .ok { st with
          stack := ⟨lvl,
            ⟨mkId pid st.counter, c, status, du, rp,
             (popGE lvl st.stack st.roots).1.head?.map (fun f => f.core.id)⟩,
            []⟩ :: (popGE lvl st.stack st.roots).1,
          roots := (popGE lvl st.stack st.roots).2,
          counter := st.counter + 1, lineNo := st.lineNo + 1 } := by
  have hbox : (if status = Status.done then 'x' else ' ') = 'x' ∨
      (if status = Status.done then 'x' else ' ') = ' ' := by
    by_cases h : status = Status.done
    · exact Or.inl (if_pos h)
    · exact Or.inr (if_neg h)
  have hr : renderTaskLine lvl c status du rp
      = indentOf lvl ++ '-' :: ' ' :: '[' ::
          (if status = Status.done then 'x' else ' ') :: ']' :: ' ' ::
          (c ++ (dueSuffix du ++ repSuffix rp)) := by
    unfold renderTaskLine
    rw [List.append_assoc]
  have hcl : classifyLine (renderTaskLine lvl c status du rp)
      = .taskLine lvl
          ((if status = Status.done then 'x' else ' ') = 'x')
          (c ++ (dueSuffix du ++ repSuffix rp)) := by
    rw [hr]
    exact classify_taskLine lvl hbox _
  rw [stepLine_of_classify pid st hcl,
    extractTags_render c du rp htrim hd0 hr0 hds]
  by_cases hdone : status = Status.done
  · subst hdone
    rfl
  · have hsec : status = st.sect := hst.resolve_left hdone
    rw [if_neg hdone]
    rw [hsec]
    rfl

theorem popGE_attachTop (l : Nat) (s : List Frame) (rts : List Task)
    (t : Task) :
    popGE l (attachTop s rts t).1 (attachTop s rts t).2
      = popGEAux l t s rts := by
  cases s with
  | nil => rfl
  | cons g gs => rfl

theorem popGE_attachTop_below {lvl : Nat} {s : List Frame}
    (h : StackBelow lvl s) (rts : List Task) (t : Task) :
    popGE lvl (attachTop s rts t).1 (attachTop s rts t).2
      = attachTop s rts t := by
  rw [popGE_of_below (attachTop_below h)]

theorem head_attachTop_below {lvl : Nat} {s : List Frame}
    (h : StackBelow lvl s) (rts : List Task) (t : Task) :
    (attachTop s rts t).1.head?.map (fun f => f.core.id)
      = s.head?.map (fun f => f.core.id) := by
  rcases h with rfl | ⟨f, fs, rfl, hf⟩ <;> rfl

theorem ofList_toList : ∀ (F : Forest), Forest.ofList (Forest.toList F) = F
  | .nil => rfl
  | .cons t ts => by
    show Forest.cons t (Forest.ofList (Forest.toList ts)) = Forest.cons t ts
    rw [ofList_toList ts]

theorem contentOkT_parts {i : Str} {c : Str} {s : Status} {d : Option Str}
    {r : Option Freq} {pi : Option Str} {ts : Forest}
    (h : contentOkT (.mk i c s d r pi ts) = true) :
    trimStr c = c ∧ countAt dueAt c = 0 ∧ countAt repAt c = 0 ∧
    (∀ dd, d = some dd → shapeFits dateDigitsShape dd = true) ∧
    contentOkF ts = true := by
  cases d with
  | none =>
    have h' : (contentOkC c && true && contentOkF ts) = true := h
    rw [Bool.and_eq_true, Bool.and_eq_true] at h'
    obtain ⟨⟨hcc, _⟩, hk⟩ := h'
    unfold contentOkC at hcc
    rw [Bool.and_eq_true, Bool.and_eq_true, Bool.and_eq_true] at hcc
    obtain ⟨⟨⟨h1, h2⟩, h3⟩, _⟩ := hcc
    refine ⟨of_decide_eq_true h1, of_decide_eq_true h2, of_decide_eq_true h3,
      ?_, hk⟩
    intro dd hdd
    exact Option.noConfusion hdd
  | some dd0 =>
    have h' : (contentOkC c && shapeFits dateDigitsShape dd0 &&
        contentOkF ts) = true := h
    rw [Bool.and_eq_true, Bool.and_eq_true] at h'
    obtain ⟨⟨hcc, hd⟩, hk⟩ := h'
    unfold contentOkC at hcc
    rw [Bool.and_eq_true, Bool.and_eq_true, Bool.and_eq_true] at hcc
    obtain ⟨⟨⟨h1, h2⟩, h3⟩, _⟩ := hcc
    refine ⟨of_decide_eq_true h1, of_decide_eq_true h2, of_decide_eq_true h3,
      ?_, hk⟩
    intro dd hdd
    injection hdd with e
    rw [← e]
    exact hd

theorem statusOkT_parts {σ : Status} {i : Str} {c : Str} {s : Status}
    {d : Option Str} {r : Option Freq} {pi : Option Str} {ts : Forest}
    (h : statusOkT σ (.mk i c s d r pi ts) = true) :
    (s = Status.done ∨ s = σ) ∧ statusOkF σ ts = true := by
  have h' : ((s = Status.done || s = σ) && statusOkF σ ts) = true := h
  rw [Bool.and_eq_true, Bool.or_eq_true] at h'
  exact ⟨h'.1.imp of_decide_eq_true of_decide_eq_true, h'.2⟩

theorem popGE_cons_le {l : Nat} {f : Frame} (h : l ≤ f.level)
    (fs : List Frame) (rts : List Task) :
    popGE l (f :: fs) rts = popGEAux l (closeFrame f) fs rts := by
  rw [popGE_cons, if_pos h]

theorem afterF_push (pid : Str) (lvl : Nat) (core : Core) (st : BState)
    (ts : Forest) :
    afterF pid
      { st with
        stack := ⟨lvl, core, []⟩ :: (popGE lvl st.stack st.roots).1,
        roots := (popGE lvl st.stack st.roots).2,
        counter := st.counter + 1, lineNo := st.lineNo + 1 } (lvl + 1) ts
    = (⟨lvl, core,
         (Forest.toList (buildF pid (st.counter + 1) (some core.id)
           ts)).reverse ++ []⟩ :: (popGE lvl st.stack st.roots).1,
       (popGE lvl st.stack st.roots).2) := by
  show attachF
      (popGE (lvl + 1) (⟨lvl, core, []⟩ :: (popGE lvl st.stack st.roots).1)
        (popGE lvl st.stack st.roots).2)
      (buildF pid (st.counter + 1)
        ((popGE (lvl + 1)
            (⟨lvl, core, []⟩ :: (popGE lvl st.stack st.roots).1)
            (popGE lvl st.stack st.roots).2).1.head?.map (fun f => f.core.id))
        ts)
    = _
  rw [popGE_lt (show (⟨lvl, core, []⟩ : Frame).level < lvl + 1
      from Nat.lt_succ_self lvl)]
  rw [attachF_cons_stack]
  rfl

theorem closeFrame_build (pid : Str) (ctr : Nat) (pId : Option Str)
    (lvl : Nat) (i c : Str) (s : Status) (d : Option Str) (r : Option Freq)
    (pi : Option Str) (ts : Forest) :
    closeFrame ⟨lvl, ⟨mkId pid ctr, c, s, d, r, pId⟩,
      (Forest.toList (buildF pid (ctr + 1) (some (mkId pid ctr)) ts)).reverse
        ++ []⟩
    = buildT pid ctr pId (.mk i c s d r pi ts) := by
  have h1 : closeFrame ⟨lvl, ⟨mkId pid ctr, c, s, d, r, pId⟩,
      (Forest.toList (buildF pid (ctr + 1) (some (mkId pid ctr)) ts)).reverse
        ++ []⟩
    = Task.mk (mkId pid ctr) c s d r pId
        (Forest.ofList (((Forest.toList (buildF pid (ctr + 1)
          (some (mkId pid ctr)) ts)).reverse ++ []).reverse)) := rfl
  rw [h1, List.append_nil, List.reverse_reverse, ofList_toList]
  rfl

mutual

theorem feedT : ∀ (t : Task) (pid : Str) (st : BState) (lvl : Nat),
    contentOkT t = true → statusOkT st.sect t = true →
    ∃ st' : BState,
      runLines pid st (emitTask lvl t) = .ok st' ∧
      st'.title = st.title ∧ st'.sect = st.sect ∧
      st'.counter = st.counter + Task.size t ∧
      ∀ l : Nat, l ≤ lvl →
        popGE l st'.stack st'.roots
          = popGE l (afterT pid st lvl t).1 (afterT pid st lvl t).2
  | .mk i c s d r pi ts, pid, st, lvl, hc, hs => by
    obtain ⟨htrim, hd0, hr0, hds, hck⟩ := contentOkT_parts hc
    obtain ⟨hsok, hsk⟩ := statusOkT_parts hs
    obtain ⟨st₂, hrun2, htit2, hsect2, hctr2, hview2⟩ :=
      feedF ts pid
        { st with
          stack := ⟨lvl,
            ⟨mkId pid st.counter, c, s, d, r,
             (popGE lvl st.stack st.roots).1.head?.map (fun f => f.core.id)⟩,
            []⟩ :: (popGE lvl st.stack st.roots).1,
          roots := (popGE lvl st.stack st.roots).2,
          counter := st.counter + 1, lineNo := st.lineNo + 1 }
        (lvl + 1) hck hsk
    refine ⟨st₂, ?_, ?_, ?_, ?_, ?_⟩
    · show runLines pid st
          (renderTaskLine lvl c s d r :: emitForest (lvl + 1) ts) = .ok st₂
      rw [runLines_cons, stepLine_task pid st lvl c s d r htrim hd0 hr0 hds
        hsok]
      exact hrun2
    · rw [htit2]
    · rw [hsect2]
    · rw [hctr2]
      show st.counter + 1 + Forest.size ts = st.counter + (1 + Forest.size ts)
      rw [Nat.add_assoc]
    · intro l hl
      rw [hview2 l (Nat.le_succ_of_le hl)]
      rw [afterF_push pid lvl
        ⟨mkId pid st.counter, c, s, d, r,
         (popGE lvl st.stack st.roots).1.head?.map (fun f => f.core.id)⟩
        st ts]
      show popGE l
          (⟨lvl,
            ⟨mkId pid st.counter, c, s, d, r,
             (popGE lvl st.stack st.roots).1.head?.map (fun f => f.core.id)⟩,
            (Forest.toList (buildF pid (st.counter + 1)
              (some (mkId pid st.counter)) ts)).reverse ++ []⟩
            :: (popGE lvl st.stack st.roots).1)
          (popGE lvl st.stack st.roots).2
        = popGE l (afterT pid st lvl (Task.mk i c s d r pi ts)).1
            (afterT pid st lvl (Task.mk i c s d r pi ts)).2
      rw [popGE_cons_le (show l ≤ (⟨lvl,
          ⟨mkId pid st.counter, c, s, d, r,
           (popGE lvl st.stack st.roots).1.head?.map (fun f => f.core.id)⟩,
          (Forest.toList (buildF pid (st.counter + 1)
            (some (mkId pid st.counter)) ts)).reverse ++ []⟩
          : Frame).level from hl)]
      rw [show afterT pid st lvl (Task.mk i c s d r pi ts)
          = attachTop (popGE lvl st.stack st.roots).1
              (popGE lvl st.stack st.roots).2
              (buildT pid st.counter
                ((popGE lvl st.stack st.roots).1.head?.map
                  (fun f => f.core.id))
                (Task.mk i c s d r pi ts)) from rfl]
      rw [popGE_attachTop]
      rw [closeFrame_build pid st.counter
        ((popGE lvl st.stack st.roots).1.head?.map (fun f => f.core.id))
        lvl i c s d r pi ts]

theorem feedF : ∀ (F : Forest) (pid : Str) (st : BState) (lvl : Nat),
    contentOkF F = true → statusOkF st.sect F = true →
    ∃ st' : BState,
      runLines pid st (emitForest lvl F) = .ok st' ∧
      st'.title = st.title ∧ st'.sect = st.sect ∧
      st'.counter = st.counter + Forest.size F ∧
      ∀ l : Nat, l ≤ lvl →
        popGE l st'.stack st'.roots
          = popGE l (afterF pid st lvl F).1 (afterF pid st lvl F).2
  | .nil, pid, st, lvl, _, _ => by
    refine ⟨st, rfl, rfl, rfl, rfl, ?_⟩
    intro l hl
    show popGE l st.stack st.roots
      = popGE l (popGE lvl st.stack st.roots).1 (popGE lvl st.stack st.roots).2
    exact (popGE_popGE hl st.stack st.roots).symm
  | .cons t ts, pid, st, lvl, hc, hs => by
    have hc' : (contentOkT t && contentOkF ts) = true := hc
    rw [Bool.and_eq_true] at hc'
    have hs' : (statusOkT st.sect t && statusOkF st.sect ts) = true := hs
    rw [Bool.and_eq_true] at hs'
    obtain ⟨st₁, hrun1, htit1, hsect1, hctr1, hview1⟩ :=
      feedT t pid st lvl hc'.1 hs'.1
    obtain ⟨st₂, hrun2, htit2, hsect2, hctr2, hview2⟩ :=
      feedF ts pid st₁ lvl hc'.2 (by rw [hsect1]; exact hs'.2)
    have hp' : popGE lvl st₁.stack st₁.roots
        = attachTop (popGE lvl st.stack st.roots).1
            (popGE lvl st.stack st.roots).2
            (buildT pid st.counter
              ((popGE lvl st.stack st.roots).1.head?.map (fun f => f.core.id))
              t) := by
      rw [hview1 lvl (le_refl lvl)]
      exact popGE_attachTop_below (popGE_below lvl st.stack st.roots) _ _
    refine ⟨st₂, ?_, ?_, ?_, ?_, ?_⟩
    · show runLines pid st (emitTask lvl t ++ emitForest lvl ts) = .ok st₂
      rw [runLines_append hrun1]
      exact hrun2
    · rw [htit2, htit1]
    · rw [hsect2, hsect1]
    · rw [hctr2, hctr1]
      show st.counter + Task.size t + Forest.size ts
        = st.counter + (Task.size t + Forest.size ts)
      rw [Nat.add_assoc]
    · intro l hl
      rw [hview2 l hl]
      have hAF : afterF pid st₁ lvl ts
          = afterF pid st lvl (Forest.cons t ts) := by
        show attachF (popGE lvl st₁.stack st₁.roots)
            (buildF pid st₁.counter
              ((popGE lvl st₁.stack st₁.roots).1.head?.map
                (fun f => f.core.id)) ts)
          = afterF pid st lvl (Forest.cons t ts)
        rw [hp', hctr1,
          head_attachTop_below (popGE_below lvl st.stack st.roots)]
        rfl
      rw [hAF]

end

/-! ## Newline-freedom of rendered lines -/

theorem shapeFits_pred : ∀ (ps : CShape) (s : Str), shapeFits ps s = true →
    ∀ c ∈ s, ∃ p ∈ ps, p c = true
  | [], [], _, c, hc => absurd hc (List.not_mem_nil c)
  | [], _ :: _, h, _, _ => by simp [shapeFits] at h
  | _ :: _, [], h, _, _ => by simp [shapeFits] at h
  | p :: ps, c₀ :: s, h, c, hc => by
    rw [show shapeFits (p :: ps) (c₀ :: s) = (p c₀ && shapeFits ps s)
      from rfl, Bool.and_eq_true] at h
    rcases List.mem_cons.mp hc with rfl | hc'
    · exact ⟨p, List.mem_cons_self _ _, h.1⟩
    · obtain ⟨q, hq, hqc⟩ := shapeFits_pred ps s h.2 c hc'
      exact ⟨q, List.mem_cons_of_mem p hq, hqc⟩

theorem dateShape_no_newline {s : Str}
    (h : shapeFits dateDigitsShape s = true) : '\n' ∉ s := by
  intro hmem
  obtain ⟨p, hp, hpc⟩ := shapeFits_pred dateDigitsShape s h '\n' hmem
  simp only [dateDigitsShape, List.mem_cons, List.not_mem_nil, or_false]
    at hp
  rcases hp with rfl | rfl | rfl | rfl | rfl | rfl | rfl | rfl | rfl | rfl <;>
    exact absurd hpc (by decide)

theorem indent_no_newline : ∀ lvl : Nat, '\n' ∉ indentOf lvl
  | 0 => List.not_mem_nil _
  | n + 1 => by
    intro h
    rcases List.mem_cons.mp h with h' | h
    · exact absurd h' (by decide)
    rcases List.mem_cons.mp h with h' | h
    · exact absurd h' (by decide)
    rcases List.mem_cons.mp h with h' | h
    · exact absurd h' (by decide)
    rcases List.mem_cons.mp h with h' | h
    · exact absurd h' (by decide)
    exact indent_no_newline n h

theorem sectionName_no_newline (σ : Status) : '\n' ∉ sectionNameOf σ := by
  cases σ <;> decide

theorem dueSuffix_no_newline {d : Option Str}
    (hds : ∀ dd, d = some dd → shapeFits dateDigitsShape dd = true) :
    '\n' ∉ dueSuffix d := by
  cases d with
  | none => exact List.not_mem_nil _
  | some dd =>
    intro h
    rcases List.mem_cons.mp h with h' | h
    · exact absurd h' (by decide)
    rcases List.mem_append.mp h with h' | h'
    · exact absurd h' (by decide)
    · exact dateShape_no_newline (hds dd rfl) h'

theorem repSuffix_no_newline (r : Option Freq) : '\n' ∉ repSuffix r := by
  cases r with
  | none => exact List.not_mem_nil _
  | some f => cases f <;> decide

theorem contentOkC_newline {c : Str} (h : contentOkC c = true) : '\n' ∉ c := by
  unfold contentOkC at h
  rw [Bool.and_eq_true] at h
  intro hm
  have := List.all_eq_true.mp h.2 '\n' hm
  exact absurd rfl (of_decide_eq_true this)

theorem contentOkT_contentOkC {i : Str} {c : Str} {s : Status} {d : Option Str}
    {r : Option Freq} {pi : Option Str} {ts : Forest}
    (h : contentOkT (.mk i c s d r pi ts) = true) : contentOkC c = true := by
  cases d with
  | none =>
    have h' : (contentOkC c && true && contentOkF ts) = true := h
    rw [Bool.and_eq_true, Bool.and_eq_true] at h'
    exact h'.1.1
  | some dd0 =>
    have h' : (contentOkC c && shapeFits dateDigitsShape dd0 &&
        contentOkF ts) = true := h
    rw [Bool.and_eq_true, Bool.and_eq_true] at h'
    exact h'.1.1

theorem renderTaskLine_no_newline {lvl : Nat} {c : Str} {s : Status}
    {d : Option Str} {r : Option Freq} (hnl : '\n' ∉ c)
    (hds : ∀ dd, d = some dd → shapeFits dateDigitsShape dd = true) :
    '\n' ∉ renderTaskLine lvl c s d r := by
  unfold renderTaskLine
  intro hmem
  rcases List.mem_append.mp hmem with hin | h
  · exact indent_no_newline lvl hin
  rcases List.mem_cons.mp h with h' | h
  · exact absurd h' (by decide)
  rcases List.mem_cons.mp h with h' | h
  · exact absurd h' (by decide)
  rcases List.mem_cons.mp h with h' | h
  · exact absurd h' (by decide)
  rcases List.mem_cons.mp h with h' | h
  · rw [h'] at hmem
    by_cases hs : s = Status.done
    · rw [if_pos hs] at h'
      exact absurd h' (by decide)
    · rw [if_neg hs] at h'
      exact absurd h' (by decide)
  rcases List.mem_cons.mp h with h' | h
  · exact absurd h' (by decide)
  rcases List.mem_cons.mp h with h' | h
  · exact absurd h' (by decide)
  rcases List.mem_append.mp h with h' | h'
  · rcases List.mem_append.mp h' with h'' | h''
    · exact hnl h''
    · exact dueSuffix_no_newline hds h''
  · exact repSuffix_no_newline r h'

mutual

theorem emitT_no_newline : ∀ (t : Task), contentOkT t = true →
    ∀ (lvl : Nat), ∀ l ∈ emitTask lvl t, '\n' ∉ l
  | .mk i c s d r pi ts, hc, lvl, l, hl => by
    obtain ⟨_, _, _, hds, hck⟩ := contentOkT_parts hc
    have hnl : '\n' ∉ c := contentOkC_newline (contentOkT_contentOkC hc)
    rcases List.mem_cons.mp hl with rfl | hl'
    · exact renderTaskLine_no_newline hnl hds
    · exact emitF_no_newline ts hck (lvl + 1) l hl'

theorem emitF_no_newline : ∀ (F : Forest), contentOkF F = true →
    ∀ (lvl : Nat), ∀ l ∈ emitForest lvl F, '\n' ∉ l
  | .nil, _, _, l, hl => absurd hl (List.not_mem_nil l)
  | .cons t ts, hc, lvl, l, hl => by
    have hc' : (contentOkT t && contentOkF ts) = true := hc
    rw [Bool.and_eq_true] at hc'
    rcases List.mem_append.mp hl with h' | h'
    · exact emitT_no_newline t hc'.1 lvl l h'
    · exact emitF_no_newline ts hc'.2 lvl l h'

end

theorem bucketLines_no_newline {σ : Status} {F : Forest}
    (hc : contentOkF (Forest.filterStatus σ F) = true) :
    ∀ l ∈ bucketLines σ F, '\n' ∉ l := by
  intro l hl
  unfold bucketLines at hl
  by_cases hnil : Forest.filterStatus σ F = .nil
  · rw [if_pos hnil] at hl
    cases hl
  · rw [if_neg hnil] at hl
    rcases List.mem_cons.mp hl with rfl | hl'
    · exact sectionName_no_newline σ
    · exact emitF_no_newline _ hc 0 l hl'

/-! ## Status and content hygiene of the filtered buckets -/

theorem contentOkF_filter (σ : Status) :
    ∀ (F : Forest), contentOkF F = true →
      contentOkF (Forest.filterStatus σ F) = true
  | .nil, _ => rfl
  | .cons t ts, h => by
    have h' : (contentOkT t && contentOkF ts) = true := h
    rw [Bool.and_eq_true] at h'
    show contentOkF (if t.status = σ then
      Forest.cons t (Forest.filterStatus σ ts) else Forest.filterStatus σ ts)
      = true
    by_cases hs : t.status = σ
    · rw [if_pos hs]
      show (contentOkT t && contentOkF (Forest.filterStatus σ ts)) = true
      rw [Bool.and_eq_true]
      exact ⟨h'.1, contentOkF_filter σ ts h'.2⟩
    · rw [if_neg hs]
      exact contentOkF_filter σ ts h'.2

theorem statusOkF_filter (σ : Status) :
    ∀ (F : Forest), rootStatusOkF F = true →
      statusOkF σ (Forest.filterStatus σ F) = true
  | .nil, _ => rfl
  | .cons t ts, h => by
    have h' : (statusOkT t.status t && rootStatusOkF ts) = true := h
    rw [Bool.and_eq_true] at h'
    show statusOkF σ (if t.status = σ then
      Forest.cons t (Forest.filterStatus σ ts) else Forest.filterStatus σ ts)
      = true
    by_cases hs : t.status = σ
    · rw [if_pos hs]
      show (statusOkT σ t && statusOkF σ (Forest.filterStatus σ ts)) = true
      rw [Bool.and_eq_true]
      refine ⟨?_, statusOkF_filter σ ts h'.2⟩
      rw [← hs]
      exact h'.1
    · rw [if_neg hs]
      exact statusOkF_filter σ ts h'.2

/-! ## Shape preservation of the rebuilt forest -/

mutual

theorem buildT_shape : ∀ (t : Task) (pid : Str) (ctr : Nat)
    (pId : Option Str), Task.shape (buildT pid ctr pId t) = Task.shape t
  | .mk i c s d r pi ts, pid, ctr, pId => by
    show Shape.mk c s d r
        (Forest.shape (buildF pid (ctr + 1) (some (mkId pid ctr)) ts))
      = Shape.mk c s d r (Forest.shape ts)
    rw [buildF_shape ts]

theorem buildF_shape : ∀ (F : Forest) (pid : Str) (ctr : Nat)
    (pId : Option Str), Forest.shape (buildF pid ctr pId F) = Forest.shape F
  | .nil, _, _, _ => rfl
  | .cons t ts, pid, ctr, pId => by
    show ShapeForest.cons (Task.shape (buildT pid ctr pId t))
        (Forest.shape (buildF pid (ctr + Task.size t) pId ts))
      = ShapeForest.cons (Task.shape t) (Forest.shape ts)
    rw [buildT_shape t, buildF_shape ts]

end

theorem ofList_append : ∀ (xs ys : List Task),
    Forest.ofList (xs ++ ys)
      = Forest.append (Forest.ofList xs) (Forest.ofList ys)
  | [], ys => rfl
  | x :: xs, ys => by
    show Forest.cons x (Forest.ofList (xs ++ ys))
      = Forest.cons x (Forest.append (Forest.ofList xs) (Forest.ofList ys))
    rw [ofList_append xs ys]

theorem shape_append : ∀ (A B : Forest),
    Forest.shape (Forest.append A B)
      = ShapeForest.append (Forest.shape A) (Forest.shape B)
  | .nil, B => rfl
  | .cons t ts, B => by
    show ShapeForest.cons (Task.shape t) (Forest.shape (Forest.append ts B))
      = ShapeForest.cons (Task.shape t)
          (ShapeForest.append (Forest.shape ts) (Forest.shape B))
    rw [shape_append ts B]

theorem sfAppend_assoc : ∀ (a b c : ShapeForest),
    ShapeForest.append (ShapeForest.append a b) c
      = ShapeForest.append a (ShapeForest.append b c)
  | .nil, _, _ => rfl
  | .cons s ss, b, c => by
    show ShapeForest.cons s (ShapeForest.append (ShapeForest.append ss b) c)
      = ShapeForest.cons s (ShapeForest.append ss (ShapeForest.append b c))
    rw [sfAppend_assoc ss b c]

/-! ## Feeding one rendered status bucket -/

theorem runBucket (pid : Str) (st : BState) (σ : Status) (F : Forest)
    (R : List Task) (hview : popGE 0 st.stack st.roots = ([], R))
    (hc : contentOkF (Forest.filterStatus σ F) = true)
    (hs : statusOkF σ (Forest.filterStatus σ F) = true) :
    ∃ st' : BState, runLines pid st (bucketLines σ F) = .ok st' ∧
      st'.title = st.title ∧
      popGE 0 st'.stack st'.roots
        = ([], (Forest.toList (buildF pid st.counter none
            (Forest.filterStatus σ F))).reverse ++ R) := by
  by_cases hnil : Forest.filterStatus σ F = .nil
  · refine ⟨st, ?_, rfl, ?_⟩
    · rw [show bucketLines σ F = [] from by
        unfold bucketLines
        rw [if_pos hnil]]
      rfl
    · rw [hnil]
      show popGE 0 st.stack st.roots = ([], [] ++ R)
      rw [List.nil_append]
      exact hview
  · obtain ⟨st', hrun, htit, _, _, hview'⟩ :=
      feedF (Forest.filterStatus σ F) pid
        { st with sect := σ, lineNo := st.lineNo + 1 } 0 hc hs
    refine ⟨st', ?_, ?_, ?_⟩
    · rw [show bucketLines σ F
          = sectionNameOf σ :: emitForest 0 (Forest.filterStatus σ F) from by
        unfold bucketLines
        rw [if_neg hnil]]
      rw [runLines_cons, stepLine_section]
      exact hrun
    · rw [htit]
    · rw [hview' 0 (le_refl 0)]
      have hAF : afterF pid { st with sect := σ, lineNo := st.lineNo + 1 } 0
          (Forest.filterStatus σ F)
        = ([], (Forest.toList (buildF pid st.counter none
            (Forest.filterStatus σ F))).reverse ++ R) := by
        show attachF (popGE 0 st.stack st.roots)
            (buildF pid st.counter
              ((popGE 0 st.stack st.roots).1.head?.map (fun f => f.core.id))
              (Forest.filterStatus σ F))
          = _
        rw [hview, attachF_nil_stack]
        rfl
      rw [hAF]
      rfl

/-- C2 counterexample: the round-trip law fails on Tree-Builder-producible
forests.  Three parsed documents each yield a forest whose rendering does not
parse back to the same title and id-free shape: a child task line under a
`## Doing` header still attaches to the open `## Todo` parent, so its status
leaks; roots listed in the order Done, Todo are re-bucketed in the order
Todo, Done; and a content whose first due-tag match's removal leaves a second
due-pattern in the content renders to a line with two due matches, which
re-parses to a validation error. -/
theorem c2_counterexample :
    roundtripOk ['p'] docStatusLeak = false ∧
    roundtripOk ['p'] docOrderSwap = false ∧
    roundtripOk ['p'] docResidualTag = false := ⟨rfl, rfl, rfl⟩

/-- C2 (amended): for every forest whose contents are as the Tree Builder
leaves them (trimmed, free of residual due/repeat tag matches, newline-free,
with `YYYY-MM-DD`-shaped due dates), whose subtrees are status-coherent with
their root (every descendant is `done` or has the root's status), and whose
roots are bucket-sorted in the order Todo, Doing, Done, and for every
newline-free title, parsing the rendered document succeeds and reproduces
the title and the forest's content, status, dueDate, repeatFrequency and
hierarchy exactly; ids are reassigned, since the PUT handler's parse is
given no prior tree. -/
theorem c2_roundtrip (pid title : Str) (F : Forest)
    (hc : contentOkF F = true) (hrs : rootStatusOkF F = true)
    (hbs : bucketSorted F) (hti : '\n' ∉ title) :
    ∃ F' : Forest,
      parseMarkdown pid (renderMarkdown title F) = .ok (title, F') ∧
      Forest.shape F' = Forest.shape F := by
  have hnl : ∀ l ∈ renderMarkdownLines title F, '\n' ∉ l := by
    intro l hl
    rw [show renderMarkdownLines title F = ('#' :: ' ' :: title) ::
      (bucketLines .todo F ++ bucketLines .doing F ++ bucketLines .done F)
      from rfl] at hl
    rcases List.mem_cons.mp hl with rfl | hl'
    · intro hm
      rcases List.mem_cons.mp hm with h' | hm'
      · exact absurd h' (by decide)
      rcases List.mem_cons.mp hm' with h' | hm''
      · exact absurd h' (by decide)
      · exact hti hm''
    · rcases List.mem_append.mp hl' with h1 | h3
      · rcases List.mem_append.mp h1 with h1' | h2
        · exact bucketLines_no_newline (contentOkF_filter _ F hc) l h1'
        · exact bucketLines_no_newline (contentOkF_filter _ F hc) l h2
      · exact bucketLines_no_newline (contentOkF_filter _ F hc) l h3
  have hne : renderMarkdownLines title F ≠ [] := by
    rw [show renderMarkdownLines title F = ('#' :: ' ' :: title) ::
      (bucketLines .todo F ++ bucketLines .doing F ++ bucketLines .done F)
      from rfl]
    exact List.cons_ne_nil _ _
  have hsplit : splitLines (renderMarkdown title F)
      = renderMarkdownLines title F := splitLines_joinLines hne hnl
  have hv0 : popGE 0 ([] : List Frame) ([] : List Task) = ([], []) := rfl
  obtain ⟨st₁, hrun1, htit1, hview1⟩ :=
    runBucket pid (⟨some title, Status.todo, 0, [], [], 1⟩ : BState)
      .todo F [] hv0 (contentOkF_filter .todo F hc)
      (statusOkF_filter .todo F hrs)
  obtain ⟨st₂, hrun2, htit2, hview2⟩ :=
    runBucket pid st₁ .doing F _ hview1 (contentOkF_filter .doing F hc)
      (statusOkF_filter .doing F hrs)
  obtain ⟨st₃, hrun3, htit3, hview3⟩ :=
    runBucket pid st₂ .done F _ hview2 (contentOkF_filter .done F hc)
      (statusOkF_filter .done F hrs)
  have hall : runLines pid initState (renderMarkdownLines title F)
      = .ok st₃ := by
    rw [show renderMarkdownLines title F = ('#' :: ' ' :: title) ::
      ((bucketLines .todo F ++ bucketLines .doing F) ++ bucketLines .done F)
      from rfl]
    rw [runLines_cons, stepLine_title]
    show runLines pid (⟨some title, Status.todo, 0, [], [], 1⟩ : BState)
      ((bucketLines .todo F ++ bucketLines .doing F) ++ bucketLines .done F)
      = .ok st₃
    rw [List.append_assoc]
    rw [runLines_append hrun1, runLines_append hrun2]
    exact hrun3
  have ht : st₃.title = some title := by rw [htit3, htit2, htit1]
  refine ⟨Forest.ofList (popGE 0 st₃.stack st₃.roots).2.reverse, ?_, ?_⟩
  · show parseMarkdownLines pid (splitLines (renderMarkdown title F)) = _
    rw [hsplit]
    unfold parseMarkdownLines
    rw [hall]
    show Except.ok (st₃.title.getD [],
        Forest.ofList (popGE 0 st₃.stack st₃.roots).2.reverse)
      = Except.ok (title,
        Forest.ofList (popGE 0 st₃.stack st₃.roots).2.reverse)
    rw [ht]
    rfl
  · rw [hview3]
    show Forest.shape (Forest.ofList
        (((Forest.toList (buildF pid st₂.counter none
            (Forest.filterStatus .done F))).reverse ++
          ((Forest.toList (buildF pid st₁.counter none
            (Forest.filterStatus .doing F))).reverse ++
           ((Forest.toList (buildF pid 0 none
             (Forest.filterStatus .todo F))).reverse ++ []))).reverse))
      = Forest.shape F
    rw [List.append_nil, List.reverse_append, List.reverse_append,
      List.reverse_reverse, List.reverse_reverse, List.reverse_reverse]
    rw [ofList_append, ofList_append, ofList_toList, ofList_toList,
      ofList_toList]
    rw [shape_append, shape_append, buildF_shape, buildF_shape, buildF_shape]
    conv_rhs => rw [← hbs]
    rw [shape_append, shape_append]
    exact sfAppend_assoc _ _ _

/-- C2 witness: the amended round trip applied to a concrete bucket-sorted,
status-coherent, tag-clean two-root forest with a due date, a repeat
frequency and a nested `done` subtask. -/
theorem c2_roundtrip_witness :
    contentOkF witF = true ∧ rootStatusOkF witF = true ∧ bucketSorted witF ∧
    ∃ F' : Forest,
      parseMarkdown ['p'] (renderMarkdown ['T'] witF) = .ok (['T'], F') ∧
      Forest.shape F' = Forest.shape witF :=
  ⟨by decide, by decide, by unfold bucketSorted; decide,
   c2_roundtrip ['p'] ['T'] witF (by decide) (by decide)
     (by unfold bucketSorted; decide) (by decide)⟩

end Todo
